import Mathlib

/-!
Verification of the process-mining analytics core: case/variant extraction
(layoutUtils.ts), directly-follows-graph construction (dfgProcessor.ts),
conservation checking (conservationChecker), metrics and bottleneck detection
(metricsCalculator.ts) and variant aggregation (metricsCalculator.ts /
variantAggregator.ts).

Modelling conventions, used throughout:
* JS numbers are modelled as `ℚ`.  Timestamps are the value of
  `new Date(ts).getTime()` in milliseconds, so parsing a timestamp is the
  identity and duration computations divide by 1000*60*60 exactly as the
  source does.  `Math.floor(n * 0.95)`, `Math.floor(n * 0.9)` and
  `Math.floor(n * 0.2)` on array lengths are modelled as the exact natural
  divisions `19*n/20`, `9*n/10` and `n/5`; for every reachable length the
  double rounding of the source agrees with the exact value.
* A JS `Map` (and a JS object used as a record) is an insertion-ordered
  association list `List (κ × β)`; a JS `Set` is an insertion-ordered
  duplicate-free `List`.
* `arr[i] || 0` is `List.getD i 0`: an out-of-bounds access yields
  `undefined || 0 = 0`, an in-bounds falsy element can only be `0` itself.
* A JS expression such as `x.reduce(..)/x.length || 0` produces `NaN` on an
  empty array, which `|| 0` turns into `0`; where the source has no `|| 0`
  guard the possibly-NaN value is modelled as an `Option ℚ` with `none` for
  NaN, and a thrown `TypeError` is modelled as `Except.error`.
* `Array.prototype.sort(cmp)` is a stable comparator sort; `jsSort` below is
  a stable insertion sort, extensionally equal to it for the (total,
  transitive) comparators the source uses.
-/

namespace ProcessFlow

/-- Stable insertion of `a` into `l`: `a` is placed after every element `b`
with `le b a`, which is exactly where a stable comparator sort puts a
later-occurring element. -/
def sInsert (le : α → α → Bool) (a : α) : List α → List α
  | [] => [a]
  | b :: l => if le b a then b :: sInsert le a l else a :: b :: l

/-- Stable comparator sort, the semantics of `Array.prototype.sort(cmp)`
with comparator `cmp a b ≤ 0 ↔ le a b`. -/
def jsSort (le : α → α → Bool) (l : List α) : List α :=
  l.foldl (fun acc x => sInsert le x acc) []

/-- `arr.sort((a, b) => a - b)` on a numeric array. -/
def jsSortQ (l : List ℚ) : List ℚ := jsSort (fun a b => a ≤ b) l

/-- `sorted[Math.floor(n / 2)] || 0`, the source's median of a duration
list (the source sorts ascending first). -/
def jsMedian (l : List ℚ) : ℚ := (jsSortQ l).getD (l.length / 2) 0

/-- `sorted[Math.floor(n * 0.95)] || 0`, the source's 95th percentile. -/
def jsP95 (l : List ℚ) : ℚ := (jsSortQ l).getD (19 * l.length / 20) 0

/-- `arr.reduce((s, d) => s + d, 0) / arr.length || 0`: the mean, with the
`NaN` produced on an empty array collapsed to `0` by `|| 0`. -/
def jsMean (l : List ℚ) : ℚ :=
  if l.length = 0 then 0 else l.foldl (fun s d => s + d) 0 / l.length

/-- Division that surfaces the JS `NaN`/`Infinity` of a zero denominator as
`none` (used where the source has no `|| 0` guard). -/
def jsDiv (a b : ℚ) : Option ℚ := if b = 0 then none else some (a / b)

section AssocMachinery

variable {κ α β : Type} [DecidableEq κ]

/-- Lookup in an insertion-ordered association list (JS `Map.get`). -/
def alLookup (m : List (κ × β)) (k : κ) : Option β :=
  (m.find? (fun p => p.1 = k)).map (fun p => p.2)

/-- The JS pattern `if (!m.has(k)) m.set(k, d); mutate(m.get(k))`: update the
entry for `k` in place if present, else append `(k, f d)`. -/
def upsert (m : List (κ × β)) (k : κ) (d : β) (f : β → β) : List (κ × β) :=
  match m with
  | [] => [(k, f d)]
  | p :: rest => if p.1 = k then (p.1, f p.2) :: rest else p :: upsert rest k d f

/-- A single pass that folds `items` into a JS `Map` via `upsert`: the
accumulator map every source loop of shape
`for (it of items) { if (!m.has(key(it))) m.set(key(it), init(it)); step(m.get(key(it)), it) }`
produces. -/
def accumulate (key : α → κ) (d : α → β) (step : β → α → β) (items : List α) :
    List (κ × β) :=
  items.foldl (fun m a => upsert m (key a) (d a) (fun b => step b a)) []

/-- JS `Set.add`: append if not already present. -/
def setInsert (l : List κ) (x : κ) : List κ := if x ∈ l then l else l ++ [x]

/-- JS record assignment `rec[k] = v`: overwrite in place or append. -/
def recSet (m : List (κ × β)) (k : κ) (v : β) : List (κ × β) :=
  if (m.find? (fun p => p.1 = k)).isSome then
    m.map (fun p => if p.1 = k then (k, v) else p)
  else m ++ [(k, v)]

/-- `m.get(k)!` followed by mutation of the value: update every entry whose
key is `k` (the source would throw on a missing key; every use below is on a
key known to be present). -/
def mapAdjust (m : List (κ × β)) (k : κ) (f : β → β) : List (κ × β) :=
  m.map (fun p => if p.1 = k then (p.1, f p.2) else p)

/-- The first item of each key class, in first-occurrence order (the key
order of the JS `Map` built by `accumulate`). -/
def firstDedupByAux (key : α → κ) (seen : List κ) : List α → List α
  | [] => []
  | a :: as =>
    if key a ∈ seen then firstDedupByAux key seen as
    else a :: firstDedupByAux key (key a :: seen) as

/-- First representative of every key class, in first-occurrence order. -/
def firstDedupBy (key : α → κ) (l : List α) : List α := firstDedupByAux key [] l

end AssocMachinery

/-! ## Data model (types/EventLog.ts, types/Variant.ts, types/DFG.ts) -/

/-- One raw log event. -/
structure Event where
  case_id : String
  state : String
  timestamp : ℚ
  performer : Option String
deriving DecidableEq, Repr

/-- One reconstructed case. -/
structure ProcessCase where
  case_id : String
  events : List Event
  sequence : List String
  start_time : ℚ
  end_time : ℚ
  total_duration_hours : ℚ
deriving DecidableEq, Repr

/-- Per-performer statistics inside a transition's `performer_breakdown`. -/
structure PerfStats where
  count : ℕ
  median_time_hours : ℚ
  mean_time_hours : ℚ
deriving DecidableEq, Repr

/-- A variant transition (types/Variant.ts `Transition`). -/
structure Transition where
  from_ : String
  to_ : String
  count : ℕ
  median_time_hours : ℚ
  mean_time_hours : ℚ
  percentile_95_hours : ℚ
  performer_breakdown : List (String × PerfStats)
deriving DecidableEq, Repr

/-- Unique-case occupancy of one state (types/Variant.ts `StateOccupancy`). -/
structure StateOccupancy where
  state : String
  unique_case_count : ℕ
  unique_cases : List String
deriving DecidableEq, Repr

/-- A behavioural variant (types/Variant.ts `Variant`). -/
structure Variant where
  variant_id : String
  sequence : List String
  case_count : ℕ
  cases : List String
  transitions : List Transition
  state_occupancy : List StateOccupancy
  total_median_hours : ℚ
  total_mean_hours : ℚ
  total_percentile_95_hours : ℚ
deriving DecidableEq, Repr

/-- One conservation check result (types/Variant.ts `ConservationCheck`). -/
structure ConservationCheck where
  node : String
  variant : String
  incoming_count : ℕ
  outgoing_counts : List (String × ℕ)
  total_outgoing : ℕ
  is_balanced : Bool
  error_message : Option String
deriving DecidableEq, Repr

/-- A DFG edge (types/DFG.ts `DFGEdge`). -/
structure DFGEdge where
  from_ : String
  to_ : String
  count : ℕ
  cases : List String
  durations : List ℚ
  performers : List String
deriving DecidableEq, Repr

/-- A DFG node (types/DFG.ts `DFGNode`). -/
structure DFGNode where
  activity : String
  frequency : ℕ
  cases : List String
  incomingEdges : List DFGEdge
  outgoingEdges : List DFGEdge
deriving DecidableEq, Repr

/-- The directly-follows graph (types/DFG.ts `DirectlyFollowsGraph`). -/
structure DirectlyFollowsGraph where
  nodes : List (String × DFGNode)
  edges : List DFGEdge
  totalCases : ℕ
  startActivities : List String
  endActivities : List String
deriving DecidableEq, Repr

/-! ## dfgProcessor.ts -/

/-- Adjacent pairs of a sequence: the loop `for i in 0..len-2, (seq[i], seq[i+1])`. -/
def adjPairs (l : List String) : List (String × String) := l.zip l.tail

/-- The string edge key `` `${from}->${to}` `` of dfgProcessor.ts line 41. -/
def edgeKey (f t : String) : String := f ++ "->" ++ t

/-- One iteration of the edge-building loop of `buildDirectlyFollowsGraph`:
the adjacent pair, the owning case id, and the duration/performer data the
loop derives by `events.find(...)` on the owning case. -/
structure EdgeOcc where
  from_ : String
  to_ : String
  case_id : String
  dur : Option ℚ
  perf : Option String
deriving DecidableEq, Repr

/-- Build the `EdgeOcc` for adjacent pair `p` of a case: the source locates
the first event of each endpoint state in the case's event list and, when
both exist, records one duration sample; the performer is the first
`to`-state event's performer. -/
def mkEdgeOcc (c : ProcessCase) (p : String × String) : EdgeOcc :=
  let fromEvent := c.events.find? (fun e => e.state = p.1)
  let toEvent := c.events.find? (fun e => e.state = p.2)
  { from_ := p.1, to_ := p.2, case_id := c.case_id,
    dur := match fromEvent, toEvent with
      | some fe, some te => some ((te.timestamp - fe.timestamp) / (1000 * 60 * 60))
      | _, _ => none,
    perf := toEvent.bind (fun te => te.performer) }

/-- All edge-loop iterations, cases outermost, positions innermost. -/
def dfgOccs (cases : List ProcessCase) : List EdgeOcc :=
  cases.flatMap (fun c => (adjPairs c.sequence).map (mkEdgeOcc c))

/-- The fresh edge `{from, to, count: 0, cases: [], durations: [], performers: []}`. -/
def edgeInit (o : EdgeOcc) : DFGEdge :=
  { from_ := o.from_, to_ := o.to_, count := 0, cases := [], durations := [],
    performers := [] }

/-- The loop body on an existing edge: `count++`, push the case id, push the
duration sample when both endpoint events were found, and add the performer
when it is truthy and not yet present. -/
def edgeStep (b : DFGEdge) (o : EdgeOcc) : DFGEdge :=
  { b with
    count := b.count + 1,
    cases := b.cases ++ [o.case_id],
    durations := b.durations ++ (match o.dur with | some q => [q] | none => []),
    performers := match o.perf with
      | some s => if s ≠ "" ∧ s ∉ b.performers then b.performers ++ [s] else b.performers
      | none => b.performers }

/-- The node map after the first pass (frequencies and case sets; the edge
lists are linked afterwards). -/
def dfgNodes0 (cases : List ProcessCase) : List (String × DFGNode) :=
  accumulate (fun (it : String × String) => it.1)
    (fun it => ({ activity := it.1, frequency := 0, cases := [],
                  incomingEdges := [], outgoingEdges := [] } : DFGNode))
    (fun n it => { n with frequency := n.frequency + 1,
                          cases := setInsert n.cases it.2 })
    (cases.flatMap (fun c => c.sequence.map (fun s => (s, c.case_id))))

/-- The deduplicated edge array, in first-occurrence order. -/
def dfgEdges (cases : List ProcessCase) : List DFGEdge :=
  (accumulate (fun o => edgeKey o.from_ o.to_) edgeInit edgeStep (dfgOccs cases)).map
    (fun p => p.2)

/-- The start-activity set (first state of every nonempty case). -/
def dfgStarts (cases : List ProcessCase) : List String :=
  cases.foldl (fun acc c =>
    match c.sequence.head? with | some h => setInsert acc h | none => acc) []

/-- The end-activity set (last state of every nonempty case). -/
def dfgEnds (cases : List ProcessCase) : List String :=
  cases.foldl (fun acc c =>
    match c.sequence.getLast? with | some h => setInsert acc h | none => acc) []

/-- `dfgProcessor.ts buildDirectlyFollowsGraph`.  The final linking loop
pushes each edge of the edge array, in order, onto its endpoint nodes, so a
node's `incomingEdges`/`outgoingEdges` are exactly the edge array filtered
by endpoint. -/
def buildDirectlyFollowsGraph (cases : List ProcessCase) : DirectlyFollowsGraph :=
  { nodes := (dfgNodes0 cases).map (fun p => (p.1,
      { p.2 with incomingEdges := (dfgEdges cases).filter (fun e => e.to_ = p.1),
                 outgoingEdges := (dfgEdges cases).filter (fun e => e.from_ = p.1) })),
    edges := dfgEdges cases,
    totalCases := cases.length,
    startActivities := dfgStarts cases,
    endActivities := dfgEnds cases }

/-- `getDFGStatistics` return type. -/
structure DFGStatistics where
  totalActivities : ℕ
  totalTransitions : ℕ
  totalTransitionInstances : ℕ
  averagePathLength : Option ℚ
  mostFrequentEdge : Option String
  mostFrequentActivity : Option String
  startActivities : List String
  endActivities : List String
deriving DecidableEq, Repr

/-- `dfgProcessor.ts getDFGStatistics`.  `totalTransitions / dfg.totalCases`
is NaN on an empty graph (modelled `none`); `edgeFrequencies[0]` of an empty
array is `undefined`, which matches no `count`, so `find` yields `null`; the
trailing `|| null` on the most frequent activity also nulls an empty-string
activity name. -/
def getDFGStatistics (dfg : DirectlyFollowsGraph) : DFGStatistics :=
  let totalTransitions := dfg.edges.foldl (fun s e => s + e.count) 0
  let edgeFrequencies := jsSort (fun a b => b ≤ a) (dfg.edges.map (fun e => e.count))
  let mostFrequentEdge := (dfg.edges.find? (fun e => edgeFrequencies.head? = some e.count)).map
    (fun e => e.from_ ++ " → " ++ e.to_)
  let nodeFrequencies := jsSort (fun a b => b ≤ a) (dfg.nodes.map (fun p => p.2.frequency))
  let mostFrequentActivity := (dfg.nodes.find? (fun p => nodeFrequencies.head? = some p.2.frequency)).bind
    (fun p => if p.2.activity = "" then none else some p.2.activity)
  { totalActivities := dfg.nodes.length,
    totalTransitions := dfg.edges.length,
    totalTransitionInstances := totalTransitions,
    averagePathLength := jsDiv (totalTransitions : ℚ) (dfg.totalCases : ℚ),
    mostFrequentEdge := mostFrequentEdge,
    mostFrequentActivity := mostFrequentActivity,
    startActivities := dfg.startActivities,
    endActivities := dfg.endActivities }

/-! ## conservationChecker (checkVariantConservation / checkDFGConservation) -/

/-- `checkVariantConservation`: per-state incoming/outgoing totals of a
variant, then the classification of each state. -/
def checkVariantConservation (variant : Variant) : List ConservationCheck :=
  let stateCounts0 := accumulate (fun (s : String) => s)
    (fun _ => ((0, 0) : ℕ × ℕ)) (fun b _ => b) variant.sequence
  let stateCounts := variant.transitions.foldl (fun m t =>
    mapAdjust (mapAdjust m t.from_ (fun c => (c.1, c.2 + t.count)))
      t.to_ (fun c => (c.1 + t.count, c.2))) stateCounts0
  stateCounts.map (fun p =>
    let state := p.1
    let incoming := p.2.1
    let outgoing := p.2.2
    let isStartState := variant.sequence.head? = some state
    let isEndState := variant.sequence.getLast? = some state
    let balancedMsg : Bool × Option String :=
      if isStartState ∧ isEndState then
        (decide (incoming = 0 ∧ outgoing = 0),
         if incoming = 0 ∧ outgoing = 0 then none else
           some ("Single-state variant should have no transitions, but found incoming="
             ++ toString incoming ++ ", outgoing=" ++ toString outgoing))
      else if isStartState then
        (decide (incoming = 0),
         if incoming = 0 then none else
           some ("Start state should have incoming=0, but found incoming=" ++ toString incoming))
      else if isEndState then
        (decide (outgoing = 0),
         if outgoing = 0 then none else
           some ("End state should have outgoing=0, but found outgoing=" ++ toString outgoing))
      else
        (decide (incoming = outgoing),
         if incoming = outgoing then none else
           some ("Intermediate state should have incoming=outgoing, but found incoming="
             ++ toString incoming ++ ", outgoing=" ++ toString outgoing))
    let outgoingCounts := (variant.transitions.filter (fun t => t.from_ = state)).foldl
      (fun r t => recSet r t.to_ t.count) []
    { node := state, variant := variant.variant_id,
      incoming_count := incoming, outgoing_counts := outgoingCounts,
      total_outgoing := outgoing, is_balanced := balancedMsg.1,
      error_message := balancedMsg.2 })

/-- `checkDFGConservation`: per-node totals from the linked edge lists, then
the classification of each activity (a node that is both a start and an end
activity is unconditionally balanced here). -/
def checkDFGConservation (dfg : DirectlyFollowsGraph) : List ConservationCheck :=
  dfg.nodes.map (fun p =>
    let activity := p.1
    let node := p.2
    let incomingCount : ℕ := node.incomingEdges.foldl (fun s e => s + e.count) (0 : ℕ)
    let outAcc : List (String × ℕ) × ℕ := node.outgoingEdges.foldl
      (fun (acc : List (String × ℕ) × ℕ) e => (recSet acc.1 e.to_ e.count, acc.2 + e.count))
      ([], 0)
    let outgoingCounts : List (String × ℕ) := outAcc.1
    let totalOutgoing : ℕ := outAcc.2
    let isStartActivity := activity ∈ dfg.startActivities
    let isEndActivity := activity ∈ dfg.endActivities
    let balancedMsg : Bool × Option String :=
      if isStartActivity ∧ isEndActivity then (true, none)
      else if isStartActivity then
        (decide (incomingCount = 0),
         if incomingCount = 0 then none else
           some ("Start activity should have no incoming edges, found " ++ toString incomingCount))
      else if isEndActivity then
        (decide (totalOutgoing = 0),
         if totalOutgoing = 0 then none else
           some ("End activity should have no outgoing edges, found " ++ toString totalOutgoing))
      else
        (decide (incomingCount = totalOutgoing),
         if incomingCount = totalOutgoing then none else
           some ("Intermediate activity flow imbalance: incoming=" ++ toString incomingCount
             ++ ", outgoing=" ++ toString totalOutgoing))
    { node := activity, variant := "DFG",
      incoming_count := incomingCount, outgoing_counts := outgoingCounts,
      total_outgoing := totalOutgoing, is_balanced := balancedMsg.1,
      error_message := balancedMsg.2 })

/-! ## constants/permitStates.ts and layoutUtils.ts (`extractVariants`) -/

/-- `VARIANT_DEFINITIONS`, as the ordered list of (key, sequence) that
`Object.entries` iterates. -/
def VARIANT_DEFINITIONS : List (String × List String) :=
  [("direct_approval",
    ["submitted", "intake_validation", "assigned_to_reviewer", "review_in_progress",
     "health_inspection", "approved"]),
   ("info_loop",
    ["submitted", "intake_validation", "assigned_to_reviewer", "review_in_progress",
     "request_additional_info", "applicant_provided_info", "review_in_progress",
     "health_inspection", "approved"]),
   ("rejected",
    ["submitted", "intake_validation", "assigned_to_reviewer", "review_in_progress",
     "health_inspection", "rejected"]),
   ("withdrawn",
    ["submitted", "intake_validation", "assigned_to_reviewer", "review_in_progress",
     "request_additional_info", "withdrawn"])]

/-- `sequence.join('→')`, the key cases are grouped by. -/
def joinKey (seq : List String) : String := String.intercalate "→" seq

/-- The registry match: `JSON.stringify(sequence) === JSON.stringify(known)`
holds exactly when the string lists are equal (stringify is injective on
string arrays), first entry wins. -/
def knownVariantId (seq : List String) : Option String :=
  (VARIANT_DEFINITIONS.find? (fun kv => kv.2 = seq)).map (fun kv => kv.1)

/-- Every occurrence of adjacent pair `(f, t)` in the raw event streams of
the group's cases, in scan order, with the duration and the target event's
performer of each occurrence (the inner double loop of `extractVariants`). -/
def transitionOccs (g : List ProcessCase) (f t : String) : List (ℚ × Option String) :=
  g.flatMap (fun c => (c.events.zip c.events.tail).filterMap (fun pr =>
    if pr.1.state = f ∧ pr.2.state = t then
      some ((pr.2.timestamp - pr.1.timestamp) / (1000 * 60 * 60), pr.2.performer)
    else none))

/-- `performerData` accumulator value. -/
structure PerfAcc where
  durations : List ℚ
  count : ℕ
deriving DecidableEq, Repr

/-- The `performerData` map of one transition: only truthy performers are
tracked; each tracked occurrence pushes its duration and bumps the count. -/
def performerData (occs : List (ℚ × Option String)) : List (String × PerfAcc) :=
  accumulate (fun (it : String × ℚ) => it.1)
    (fun _ => ({ durations := [], count := 0 } : PerfAcc))
    (fun b it => { durations := b.durations ++ [it.2], count := b.count + 1 })
    (occs.filterMap (fun o => match o.2 with
      | some s => if s ≠ "" then some (s, o.1) else none
      | none => none))

/-- One candidate transition of the canonical sequence: included only when
`actualTransitionCount > 0`; `count` is the number of occurrences of the
pair across all the group's raw event streams. -/
def mkTransition (g : List ProcessCase) (p : String × String) : Option Transition :=
  let occs := transitionOccs g p.1 p.2
  if occs.length = 0 then none else
    let durations : List ℚ := occs.map (fun o => o.1)
    some
      { from_ := p.1, to_ := p.2, count := occs.length,
        median_time_hours := jsMedian durations,
        mean_time_hours := jsMean durations,
        percentile_95_hours := jsP95 durations,
        performer_breakdown := (performerData occs).map (fun q =>
          (q.1, ({ count := q.2.count,
                   median_time_hours := jsMedian q.2.durations,
                   mean_time_hours := jsMean q.2.durations } : PerfStats))) }

/-- Build one `Variant` from a (nonempty) group; the canonical sequence is
the first case's. -/
def buildVariant (variantId : String) (g : List ProcessCase) : Option Variant :=
  match g with
  | [] => none
  | c0 :: _ =>
    let sequence := c0.sequence
    some
      { variant_id := variantId,
        sequence := sequence,
        case_count := g.length,
        cases := g.map (fun c => c.case_id),
        transitions := (adjPairs sequence).filterMap (mkTransition g),
        state_occupancy := sequence.map (fun state =>
          let uniqueCases : List String := g.foldl (fun acc c =>
            if c.events.any (fun e => e.state = state) then setInsert acc c.case_id else acc) []
          { state := state, unique_case_count := uniqueCases.length,
            unique_cases := uniqueCases }),
        total_median_hours := jsMedian (g.map (fun c => c.total_duration_hours)),
        total_mean_hours := jsMean (g.map (fun c => c.total_duration_hours)),
        total_percentile_95_hours := jsP95 (g.map (fun c => c.total_duration_hours)) }

/-- The group map of `extractVariants`: cases are pushed onto the entry of
their joined sequence key, in input order. -/
def variantGroups (cases : List ProcessCase) : List (String × List ProcessCase) :=
  accumulate (fun c => joinKey c.sequence) (fun _ => ([] : List ProcessCase))
    (fun g c => g ++ [c]) cases

/-- `layoutUtils.ts extractVariants`: group by joined sequence, build each
variant (the `unknown_` counter increments for every group, even when a
registry match overrides the id), then sort by `case_count` descending. -/
def extractVariants (cases : List ProcessCase) : List Variant :=
  let unsorted := (variantGroups cases).enum.filterMap (fun ig =>
    let defaultId := "unknown_" ++ toString (ig.1 + 1)
    let g := ig.2.2
    let variantId := match g with
      | [] => defaultId
      | c0 :: _ => (knownVariantId c0.sequence).getD defaultId
    buildVariant variantId g)
  jsSort (fun a b => b.case_count ≤ a.case_count) unsorted

/-! ## metricsCalculator.ts (`calculateProcessMetrics`, `identifyBottlenecks`) -/

/-- A case-duration extreme. -/
structure CaseExtreme where
  caseId : String
  duration : ℚ
deriving DecidableEq, Repr

/-- `ProcessMetrics.caseMetrics`. -/
structure CaseMetrics where
  totalCases : ℕ
  averageCaseDuration : ℚ
  medianCaseDuration : ℚ
  percentile95CaseDuration : ℚ
  shortestCase : CaseExtreme
  longestCase : CaseExtreme
deriving DecidableEq, Repr

/-- `ProcessMetrics.variantMetrics`. -/
structure VariantMetrics where
  totalVariants : ℕ
  mostCommonVariant : String
  variantCoverage : ℚ
  variantComplexity : ℚ
deriving DecidableEq, Repr

/-- A transition-timing extreme. -/
structure TransExtreme where
  from_ : String
  to_ : String
  medianTime : ℚ
deriving DecidableEq, Repr

/-- `ProcessMetrics.transitionMetrics`; `averageTransitionTime` is NaN
(modelled `none`) when no transition has a positive median. -/
structure TransitionMetrics where
  totalTransitions : ℕ
  averageTransitionTime : Option ℚ
  slowestTransition : TransExtreme
  fastestTransition : TransExtreme
deriving DecidableEq, Repr

/-- One performer's workload entry. -/
structure PerformerLoad where
  totalTransitions : ℕ
  averageTime : ℚ
  activities : List String
deriving DecidableEq, Repr

/-- `ProcessMetrics.performerMetrics`. -/
structure PerformerMetrics where
  totalPerformers : ℕ
  performerWorkload : List (String × PerformerLoad)
  bottleneckPerformers : List String
deriving DecidableEq, Repr

/-- The busiest hour bucket; the initial `start: ''` of the source (replaced
by the first bucket since every bucket count is positive) is `none`, and an
hour key `YYYY-MM-DDTHH` is represented by the hour number
`⌊ms / 3600000⌋`. -/
structure Busiest where
  start : Option ℤ
  caseCount : ℕ
deriving DecidableEq, Repr

/-- `ProcessMetrics.throughputMetrics`. -/
structure ThroughputMetrics where
  casesPerDay : ℚ
  casesPerWeek : ℚ
  busiest24Hours : Busiest
deriving DecidableEq, Repr

/-- `metricsCalculator.ts ProcessMetrics`. -/
structure ProcessMetrics where
  caseMetrics : CaseMetrics
  variantMetrics : VariantMetrics
  transitionMetrics : TransitionMetrics
  performerMetrics : PerformerMetrics
  throughputMetrics : ThroughputMetrics
deriving DecidableEq, Repr

/-- The `performerData` accumulator of `calculateProcessMetrics` and the
`performerTimes` accumulator of `identifyBottlenecks` (same shape). -/
structure PerformerTimeAcc where
  totalTransitions : ℕ
  totalTime : ℚ
  activities : List String
deriving DecidableEq, Repr

/-- The nested performer loop items: one `(performer, stats, target state)`
per `performer_breakdown` entry of every transition of every variant, in
iteration order. -/
def performerItems (variants : List Variant) : List (String × PerfStats × String) :=
  variants.flatMap (fun v => v.transitions.flatMap (fun t =>
    t.performer_breakdown.map (fun pe => (pe.1, pe.2, t.to_))))

/-- The shared performer accumulation: transitions handled, total time
(mean × count) and distinct target activities per performer. -/
def performerAcc (variants : List Variant) : List (String × PerformerTimeAcc) :=
  accumulate (fun (it : String × PerfStats × String) => it.1)
    (fun _ => ({ totalTransitions := 0, totalTime := 0, activities := [] } : PerformerTimeAcc))
    (fun b it =>
      { totalTransitions := b.totalTransitions + it.2.1.count,
        totalTime := b.totalTime + it.2.1.mean_time_hours * it.2.1.count,
        activities := setInsert b.activities it.2.2 })
    (performerItems variants)

/-- The `slowestTransition` fold of `calculateProcessMetrics`. -/
def slowestTransitionOf (allTransitions : List Transition) : TransExtreme :=
  allTransitions.foldl
    (fun acc t => if acc.medianTime < t.median_time_hours then
      { from_ := t.from_, to_ := t.to_, medianTime := t.median_time_hours } else acc)
    { from_ := "", to_ := "", medianTime := 0 }

/-- The `fastestTransition` fold: the `Infinity` initial value is modelled
as `none`, and the final `=== Infinity` fallback yields the zero record. -/
def fastestTransitionOf (allTransitions : List Transition) : TransExtreme :=
  (allTransitions.foldl
    (fun (acc : Option TransExtreme) t =>
      match acc with
      | none => if (0 : ℚ) < t.median_time_hours then
          some { from_ := t.from_, to_ := t.to_, medianTime := t.median_time_hours }
        else none
      | some f => if t.median_time_hours < f.medianTime ∧ (0 : ℚ) < t.median_time_hours then
          some { from_ := t.from_, to_ := t.to_, medianTime := t.median_time_hours }
        else some f) none).getD { from_ := "", to_ := "", medianTime := 0 }

/-- `caseMetrics` of a nonempty case list (head `c0`). -/
def caseMetricsOf (cases : List ProcessCase) (c0 : ProcessCase) : CaseMetrics :=
  let durations : List ℚ := jsSortQ (cases.map (fun c => c.total_duration_hours))
  let n : ℕ := durations.length
  let seed : CaseExtreme := { caseId := c0.case_id, duration := c0.total_duration_hours }
  { totalCases := cases.length,
    averageCaseDuration := durations.foldl (fun s d => s + d) 0 / (n : ℚ),
    medianCaseDuration := durations.getD (n / 2) 0,
    percentile95CaseDuration := durations.getD (19 * n / 20) 0,
    shortestCase := cases.foldl
      (fun acc c => if c.total_duration_hours < acc.duration then
        { caseId := c.case_id, duration := c.total_duration_hours } else acc) seed,
    longestCase := cases.foldl
      (fun acc c => if acc.duration < c.total_duration_hours then
        { caseId := c.case_id, duration := c.total_duration_hours } else acc) seed }

/-- `variantMetrics` (the case list is nonempty when this is reached). -/
def variantMetricsOf (cases : List ProcessCase) (variants : List Variant) : VariantMetrics :=
  { totalVariants := variants.length,
    mostCommonVariant := ((variants.head?).map (fun v => v.variant_id)).getD "unknown",
    variantCoverage :=
      ((((variants.take 3).map (fun v => v.case_count)).sum : ℚ) / (cases.length : ℚ)) * 100,
    variantComplexity :=
      ((variants.map (fun v => ((v.sequence.length * v.case_count : ℕ) : ℚ))).sum)
        / (cases.length : ℚ) }

/-- `transitionMetrics`; `averageTransitionTime` keeps its possible NaN as
`none` (the source divides by the possibly-zero number of positive
medians). -/
def transitionMetricsOf (variants : List Variant) : TransitionMetrics :=
  let allTransitions : List Transition := variants.flatMap (fun v => v.transitions)
  let transitionTimes : List ℚ :=
    (allTransitions.map (fun t => t.median_time_hours)).filter (fun t => 0 < t)
  { totalTransitions := allTransitions.length,
    averageTransitionTime :=
      jsDiv (transitionTimes.foldl (fun s t => s + t) 0) (transitionTimes.length : ℚ),
    slowestTransition := slowestTransitionOf allTransitions,
    fastestTransition := fastestTransitionOf allTransitions }

/-- `performerMetrics`: workload per performer and the top 20% slowest
performers (at least one). -/
def performerMetricsOf (variants : List Variant) : PerformerMetrics :=
  let perfAcc : List (String × PerformerTimeAcc) := performerAcc variants
  let performerAverageTimes : List (String × ℚ) := jsSort (fun a b => b.2 ≤ a.2)
    (perfAcc.map (fun p => (p.1, p.2.totalTime / (p.2.totalTransitions : ℚ))))
  { totalPerformers := perfAcc.length,
    performerWorkload := perfAcc.map (fun p =>
      (p.1, { totalTransitions := p.2.totalTransitions,
              averageTime := p.2.totalTime / (p.2.totalTransitions : ℚ),
              activities := p.2.activities })),
    bottleneckPerformers :=
      (performerAverageTimes.take (max 1 (performerAverageTimes.length / 5))).map
        (fun p => p.1) }

/-- `throughputMetrics` of a nonempty case list. -/
def throughputMetricsOf (cases : List ProcessCase) : ThroughputMetrics :=
  let timestamps : List ℚ := jsSortQ (cases.map (fun c => c.start_time))
  let firstCase : ℚ := timestamps.getD 0 0
  let lastCase : ℚ := timestamps.getD (timestamps.length - 1) 0
  let totalDays : ℚ := (lastCase - firstCase) / (1000 * 60 * 60 * 24)
  let casesPerDay : ℚ := (cases.length : ℚ) / max totalDays 1
  let hourlyBuckets : List (ℤ × ℕ) :=
    accumulate (fun c => ⌊c.start_time / 3600000⌋) (fun _ => (0 : ℕ))
      (fun cnt _ => cnt + 1) cases
  { casesPerDay := casesPerDay,
    casesPerWeek := casesPerDay * 7,
    busiest24Hours := hourlyBuckets.foldl
      (fun best p => if best.caseCount < p.2 then
        { start := some p.1, caseCount := p.2 } else best)
      { start := none, caseCount := 0 } }

/-- `metricsCalculator.ts calculateProcessMetrics`.  On an empty case list
the seed of the `shortestCase` reduce reads `cases[0].case_id` from
`undefined` and throws a `TypeError`, modelled as `Except.error`; the unused
DFG argument of the source is kept. -/
def calculateProcessMetrics (cases : List ProcessCase) (variants : List Variant)
    (_dfg : DirectlyFollowsGraph) : Except String ProcessMetrics :=
  match cases with
  | [] => Except.error "TypeError: cannot read case_id of undefined (empty cases)"
  | c0 :: _ =>
    Except.ok
      { caseMetrics := caseMetricsOf cases c0,
        variantMetrics := variantMetricsOf cases variants,
        transitionMetrics := transitionMetricsOf variants,
        performerMetrics := performerMetricsOf variants,
        throughputMetrics := throughputMetricsOf cases }

/-- One entry of the `identifyBottlenecks` result. -/
structure Bottleneck where
  type : String
  identifier : String
  score : ℚ
  reason : String
  affectedCases : ℕ
deriving DecidableEq, Repr

/-- The pooled positive transition medians `allTransitionTimes` of
`identifyBottlenecks`, in collection order. -/
def transitionTimePool (variants : List Variant) : List ℚ :=
  variants.flatMap (fun v => v.transitions.filterMap (fun t =>
    if 0 < t.median_time_hours then some t.median_time_hours else none))

/-- `allTransitionTimes.sort(..)[Math.floor(len * 0.9)] || 0`: the 90th
percentile threshold of `identifyBottlenecks`. -/
def p90Threshold (variants : List Variant) : ℚ :=
  (jsSortQ (transitionTimePool variants)).getD (9 * (transitionTimePool variants).length / 10) 0

/-- The transition-bottleneck record pushed for variant `v`, transition `t`.
The numeric interpolation of the source's `reason` string is omitted; the
number itself is the `score` field. -/
def mkTransBottleneck (v : Variant) (t : Transition) : Bottleneck :=
  { type := "transition", identifier := t.from_ ++ " → " ++ t.to_,
    score := t.median_time_hours,
    reason := "High median time with significant frequency",
    affectedCases := v.case_count }

/-- `metricsCalculator.ts identifyBottlenecks`: transitions whose median
meets the pooled 90th-percentile threshold in a variant with at least 10
cases, then the top 20% slowest performers with at least 5 handled
transitions, sorted together by score descending. -/
def identifyBottlenecks (variants : List Variant) : List Bottleneck :=
  let threshold : ℚ := p90Threshold variants
  let transB : List Bottleneck := variants.flatMap (fun v =>
    v.transitions.filterMap (fun t =>
      if threshold ≤ t.median_time_hours ∧ 10 ≤ v.case_count then
        some (mkTransBottleneck v t)
      else none))
  let perfAcc : List (String × PerformerTimeAcc) := performerAcc variants
  let performerAverages : List (String × ℚ × ℕ × ℕ) := jsSort (fun a b => b.2.1 ≤ a.2.1)
    (perfAcc.map (fun p =>
      (p.1, p.2.totalTime / (p.2.totalTransitions : ℚ), p.2.totalTransitions, p.2.activities.length)))
  let slowPerformerCount : ℕ := max 1 (performerAverages.length / 5)
  let slowPerformers := (performerAverages.take slowPerformerCount).filter
    (fun p => 5 ≤ p.2.2.1)
  let perfB : List Bottleneck := slowPerformers.map (fun p =>
    { type := "performer", identifier := p.1, score := p.2.1,
      reason := "Consistently slow performance across activities",
      affectedCases := p.2.2.1 })
  jsSort (fun a b => b.score ≤ a.score) (transB ++ perfB)

/-! ## metricsCalculator.ts / variantAggregator.ts (total flow + aggregation) -/

/-- The composite key `` `${from} → ${to}` `` used by `calculateTotalFlow`
and `aggregateVariants`. -/
def mkKey (f t : String) : String := f ++ " → " ++ t

/-- `const [from, to] = key.split(' → ')`: the first two split parts (a
missing second part would be `undefined`; every key built by `mkKey` has
one). -/
def splitKey (k : String) : String × String :=
  let parts := k.splitOn " → "
  (parts.getD 0 "", parts.getD 1 "")

/-- A `TotalFlowData.transitions` value. -/
structure TFTransData where
  count : ℕ
  times : List ℚ
  performer_data : List (String × List ℚ)
  cases : List String
deriving DecidableEq, Repr

/-- A `TotalFlowData.state_occupancy` value. -/
structure TFStateData where
  cases : List String
  unique_case_count : ℕ
deriving DecidableEq, Repr

/-- `metricsCalculator.ts TotalFlowData`. -/
structure TotalFlowData where
  transitions : List (String × TFTransData)
  state_occupancy : List (String × TFStateData)
deriving DecidableEq, Repr

/-- One transition-loop step of `calculateTotalFlow`: always bump the count
and add the case to the case set; when both endpoint events were found, push
the duration sample and the target performer's sample (`performer || 
'system'`). -/
def tfStep (b : TFTransData) (o : EdgeOcc) : TFTransData :=
  let b1 : TFTransData := { b with count := b.count + 1, cases := setInsert b.cases o.case_id }
  match o.dur with
  | none => b1
  | some q =>
    let performer : String := match o.perf with
      | some s => if s = "" then "system" else s
      | none => "system"
    { b1 with times := b1.times ++ [q],
              performer_data := upsert b1.performer_data performer [] (fun l => l ++ [q]) }

/-- `metricsCalculator.ts calculateTotalFlow`: per-state unique-case
occupancy and per-transition volume over all cases; the per-occurrence
duration/performer derivation is the same event lookup as the DFG builder's
(`mkEdgeOcc`). -/
def calculateTotalFlow (cases : List ProcessCase) : TotalFlowData :=
  { transitions := accumulate (fun o => mkKey o.from_ o.to_)
      (fun _ => ({ count := 0, times := [], performer_data := [], cases := [] } : TFTransData))
      tfStep (dfgOccs cases),
    state_occupancy := accumulate (fun (it : String × String) => it.1)
      (fun _ => ({ cases := [], unique_case_count := 0 } : TFStateData))
      (fun b it =>
        let cs : List String := setInsert b.cases it.2
        { cases := cs, unique_case_count := cs.length })
      (cases.flatMap (fun c => c.sequence.map (fun st => (st, c.case_id)))) }

/-- A `contributing_variants` entry of an aggregated transition. -/
structure ContribVariant where
  variant_id : String
  count : ℕ
  median_time_hours : ℚ
deriving DecidableEq, Repr

/-- A `contributing_variants` entry of an aggregated state occupancy. -/
structure ContribOcc where
  variant_id : String
  unique_case_count : ℕ
  unique_cases : List String
deriving DecidableEq, Repr

/-- `AggregatedStateOccupancy`. -/
structure AggStateOcc where
  state : String
  unique_case_count : ℕ
  unique_cases : List String
  contributing_variants : List ContribOcc
deriving DecidableEq, Repr

/-- The `transitionMap` value of `aggregateVariants`. -/
structure AggTransData where
  count : ℕ
  times : List ℚ
  performer_data : List (String × List ℚ)
  contributing_variants : List ContribVariant
deriving DecidableEq, Repr

/-- An `AggregatedVariant.transitions` entry. -/
structure AggTransition where
  from_ : String
  to_ : String
  count : ℕ
  median_time_hours : ℚ
  mean_time_hours : ℚ
  percentile_95_hours : ℚ
  performer_breakdown : List (String × PerfStats)
  contributing_variants : List ContribVariant
deriving DecidableEq, Repr

/-- `AggregatedVariant`. -/
structure AggregatedVariant where
  variant_ids : List String
  sequence : List String
  total_case_count : ℕ
  state_occupancy : List AggStateOcc
  transitions : List AggTransition
  total_median_hours : ℚ
  total_mean_hours : ℚ
  total_percentile_95_hours : ℚ
deriving DecidableEq, Repr

/-- The union of all states of the selected variants (a JS `Set`, insertion
ordered): the aggregated `sequence`/display node set. -/
def allStatesOf (variants : List Variant) : List String :=
  variants.foldl (fun acc v => v.sequence.foldl setInsert acc) []

/-- The selected topology: the set of `from → to` keys appearing in any
selected variant, in first-occurrence order. -/
def topoKeys (variants : List Variant) : List String :=
  variants.foldl (fun acc v =>
    v.transitions.foldl (fun acc2 t => setInsert acc2 (mkKey t.from_ t.to_)) acc) []

/-- The per-key contributing-variants record: each selected variant's first
transition matching the key. -/
def contribVariantsFor (variants : List Variant) (k : String) : List ContribVariant :=
  variants.filterMap (fun v =>
    (v.transitions.find? (fun t => mkKey t.from_ t.to_ = k)).map (fun t =>
      { variant_id := v.variant_id, count := t.count,
        median_time_hours := t.median_time_hours }))

/-- The total-flow branch of the transition aggregation: a topology key
present in the total-flow data takes its count, duration samples and
performer samples wholesale from the total-flow data; only
`contributing_variants` depends on the selection. -/
def aggEntryTotal (tfd : TotalFlowData) (variants : List Variant) (k : String) :
    Option (String × AggTransData) :=
  (alLookup tfd.transitions k).map (fun td =>
    (k, { count := td.count, times := td.times, performer_data := td.performer_data,
          contributing_variants := contribVariantsFor variants k }))

/-- The `transitionMap` of the total-flow branch, in topology order. -/
def transitionMapTotal (tfd : TotalFlowData) (variants : List Variant) :
    List (String × AggTransData) :=
  (topoKeys variants).filterMap (aggEntryTotal tfd variants)

/-- The fallback-branch items: every (variant, transition) pair in iteration
order. -/
def fbItems (variants : List Variant) : List (Variant × Transition) :=
  variants.flatMap (fun v => v.transitions.map (fun t => (v, t)))

/-- The fallback-branch step: sum the count, replicate the transition's
median `count` times into the sample list, replicate each performer's median
`count` times, and record the contributing variant. -/
def fbStep (b : AggTransData) (it : Variant × Transition) : AggTransData :=
  { count := b.count + it.2.count,
    times := b.times ++ List.replicate it.2.count it.2.median_time_hours,
    performer_data := it.2.performer_breakdown.foldl (fun pd pe =>
      upsert pd pe.1 [] (fun l => l ++ List.replicate pe.2.count pe.2.median_time_hours))
      b.performer_data,
    contributing_variants := b.contributing_variants ++
      [{ variant_id := it.1.variant_id, count := it.2.count,
         median_time_hours := it.2.median_time_hours }] }

/-- The `transitionMap` of the fallback branch (no total-flow data). -/
def transitionMapFallback (variants : List Variant) : List (String × AggTransData) :=
  accumulate (fun (it : Variant × Transition) => mkKey it.2.from_ it.2.to_)
    (fun _ => ({ count := 0, times := [], performer_data := [],
                 contributing_variants := [] } : AggTransData))
    fbStep (fbItems variants)

/-- Conversion of one `transitionMap` entry to the final aggregated
transition: split the key back into endpoints and compute the timing and
performer statistics from the collected samples. -/
def aggFinalize (k : String) (data : AggTransData) : AggTransition :=
  let ft := splitKey k
  { from_ := ft.1, to_ := ft.2, count := data.count,
    median_time_hours := jsMedian data.times,
    mean_time_hours := jsMean data.times,
    percentile_95_hours := jsP95 data.times,
    performer_breakdown := data.performer_data.map (fun pr =>
      (pr.1, ({ count := pr.2.length, median_time_hours := jsMedian pr.2,
                mean_time_hours := jsMean pr.2 } : PerfStats))),
    contributing_variants := data.contributing_variants }

/-- Total-flow branch of the state-occupancy aggregation: total counts and
case sets from the total-flow data, contributing variants from the
selection. -/
def aggStateOccTotal (tfd : TotalFlowData) (variants : List Variant) : List AggStateOcc :=
  (allStatesOf variants).filterMap (fun st =>
    (alLookup tfd.state_occupancy st).map (fun sd =>
      { state := st, unique_case_count := sd.unique_case_count,
        unique_cases := sd.cases,
        contributing_variants := variants.filterMap (fun v =>
          (v.state_occupancy.find? (fun so => so.state = st)).map (fun so =>
            { variant_id := v.variant_id, unique_case_count := so.unique_case_count,
              unique_cases := so.unique_cases })) }))

/-- Fallback branch of the state-occupancy aggregation: union the selected
variants' own unique-case sets. -/
def aggStateOccFallback (variants : List Variant) : List AggStateOcc :=
  (accumulate (fun (it : String × StateOccupancy) => it.2.state)
    (fun _ => (([], []) : List String × List ContribOcc))
    (fun b it =>
      (it.2.unique_cases.foldl setInsert b.1,
       b.2 ++ [{ variant_id := it.1, unique_case_count := it.2.unique_case_count,
                 unique_cases := it.2.unique_cases }]))
    (variants.flatMap (fun v => v.state_occupancy.map (fun so => (v.variant_id, so))))).map
    (fun p => { state := p.1, unique_case_count := p.2.1.length,
                unique_cases := p.2.1, contributing_variants := p.2.2 })

/-- The total timing metrics of an aggregation: each variant's total median
replicated `case_count` times, then median/mean/p95 of the pool. -/
def allTotalTimes (variants : List Variant) : List ℚ :=
  variants.flatMap (fun v => List.replicate v.case_count v.total_median_hours)

/-- `metricsCalculator.ts aggregateVariants`: `null` on an empty selection;
topology from the selected variants; volume from `TotalFlowData` when
supplied, else recombined from the selected variants' own statistics. -/
def aggregateVariants (variants : List Variant) (totalFlowData : Option TotalFlowData) :
    Option AggregatedVariant :=
  match variants with
  | [] => none
  | _ =>
    let transitionMap : List (String × AggTransData) := match totalFlowData with
      | some tfd => transitionMapTotal tfd variants
      | none => transitionMapFallback variants
    let stateOcc : List AggStateOcc := match totalFlowData with
      | some tfd => aggStateOccTotal tfd variants
      | none => aggStateOccFallback variants
    some
      { variant_ids := variants.map (fun v => v.variant_id),
        sequence := allStatesOf variants,
        total_case_count := (variants.map (fun v => v.case_count)).sum,
        state_occupancy := stateOcc,
        transitions := transitionMap.map (fun p => aggFinalize p.1 p.2),
        total_median_hours := jsMedian (allTotalTimes variants),
        total_mean_hours := jsMean (allTotalTimes variants),
        total_percentile_95_hours := jsP95 (allTotalTimes variants) }

/-- `variantAggregator.ts aggregateVariants` (no total-flow parameter): the
same computation as the fallback branch above, which the source duplicates
verbatim. -/
def aggregateVariantsVA (variants : List Variant) : Option AggregatedVariant :=
  match variants with
  | [] => none
  | _ =>
    some
      { variant_ids := variants.map (fun v => v.variant_id),
        sequence := allStatesOf variants,
        total_case_count := (variants.map (fun v => v.case_count)).sum,
        state_occupancy := aggStateOccFallback variants,
        transitions := (transitionMapFallback variants).map (fun p => aggFinalize p.1 p.2),
        total_median_hours := jsMedian (allTotalTimes variants),
        total_mean_hours := jsMean (allTotalTimes variants),
        total_percentile_95_hours := jsP95 (allTotalTimes variants) }

/-! ## Lemmas: sorting -/

theorem sInsert_perm (le : α → α → Bool) (a : α) (l : List α) :
    List.Perm (sInsert le a l) (a :: l) := by
  induction l with
  | nil => simp [sInsert]
  | cons b t ih =>
    by_cases h : le b a
    · simp only [sInsert, if_pos h]
      exact (ih.cons b).trans (List.Perm.swap a b t)
    · simp [sInsert, h]

theorem foldl_sInsert_perm (le : α → α → Bool) (acc l : List α) :
    List.Perm (l.foldl (fun acc x => sInsert le x acc) acc) (acc ++ l) := by
  induction l generalizing acc with
  | nil => simp
  | cons x t ih =>
    refine (ih (sInsert le x acc)).trans ?_
    refine (List.Perm.append_right t (sInsert_perm le x acc)).trans ?_
    exact List.perm_middle.symm

theorem jsSort_perm (le : α → α → Bool) (l : List α) : List.Perm (jsSort le l) l := by
  simpa [jsSort] using foldl_sInsert_perm le [] l

theorem mem_jsSort {le : α → α → Bool} {l : List α} {a : α} :
    a ∈ jsSort le l ↔ a ∈ l := (jsSort_perm le l).mem_iff

theorem length_jsSort (le : α → α → Bool) (l : List α) :
    (jsSort le l).length = l.length := (jsSort_perm le l).length_eq

/-! ## Lemmas: association machinery -/

section AssocLemmas

variable {κ α β : Type} [DecidableEq κ]

theorem mem_setInsert {l : List κ} {x y : κ} : y ∈ setInsert l x ↔ y ∈ l ∨ y = x := by
  by_cases h : x ∈ l
  · rw [setInsert, if_pos h]
    exact ⟨Or.inl, fun hy => hy.elim id (fun e => e ▸ h)⟩
  · rw [setInsert, if_neg h]
    simp

theorem alLookup_cons {p : κ × β} {m : List (κ × β)} {k : κ} :
    alLookup (p :: m) k = if p.1 = k then some p.2 else alLookup m k := by
  by_cases h : p.1 = k <;> simp [alLookup, List.find?_cons, h]

theorem alLookup_append {m₁ m₂ : List (κ × β)} {k : κ} :
    alLookup (m₁ ++ m₂) k =
      match alLookup m₁ k with
      | some b => some b
      | none => alLookup m₂ k := by
  induction m₁ with
  | nil => simp [alLookup]
  | cons p t ih =>
    by_cases h : p.1 = k <;> simp [alLookup_cons, h, ih]

theorem alLookup_upsert_self (m : List (κ × β)) (k : κ) (d : β) (f : β → β) :
    alLookup (upsert m k d f) k = some (f ((alLookup m k).getD d)) := by
  induction m with
  | nil => simp [upsert, alLookup_cons, alLookup]
  | cons p t ih =>
    by_cases h : p.1 = k
    · simp [upsert, h, alLookup_cons]
    · simp [upsert, h, alLookup_cons, ih]

theorem alLookup_upsert_ne (m : List (κ × β)) {k k2 : κ} (d : β) (f : β → β)
    (h : k2 ≠ k) : alLookup (upsert m k d f) k2 = alLookup m k2 := by
  have hk : ¬ (k = k2) := fun e => h e.symm
  induction m with
  | nil => simp [upsert, alLookup_cons, alLookup, hk]
  | cons p t ih =>
    by_cases hp : p.1 = k
    · simp [upsert, hp, alLookup_cons, hk]
    · simp [upsert, hp, alLookup_cons, ih]

theorem upsert_of_lookup_none {m : List (κ × β)} {k : κ} (d : β) (f : β → β)
    (h : alLookup m k = none) : upsert m k d f = m ++ [(k, f d)] := by
  induction m with
  | nil => simp [upsert]
  | cons p t ih =>
    rw [alLookup_cons] at h
    by_cases hp : p.1 = k
    · simp [hp] at h
    · simp only [hp, if_neg, ite_false] at h
      simp [upsert, hp, ih h]

/-- Keys of an association list. -/
def alKeys (m : List (κ × β)) : List κ := m.map (fun p => p.1)

theorem alKeys_upsert_none {m : List (κ × β)} {k : κ} (d : β) (f : β → β)
    (h : alLookup m k = none) : alKeys (upsert m k d f) = alKeys m ++ [k] := by
  rw [upsert_of_lookup_none d f h]
  simp [alKeys]

theorem alKeys_upsert_some {m : List (κ × β)} {k : κ} (d : β) (f : β → β)
    (h : alLookup m k ≠ none) : alKeys (upsert m k d f) = alKeys m := by
  induction m with
  | nil => simp [alLookup] at h
  | cons p t ih =>
    rw [alLookup_cons] at h
    by_cases hp : p.1 = k
    · simp [upsert, hp, alKeys]
    · rw [if_neg hp] at h
      simp [upsert, hp, alKeys]
      have := ih h
      simpa [alKeys] using this

theorem alLookup_eq_none_iff {m : List (κ × β)} {k : κ} :
    alLookup m k = none ↔ k ∉ alKeys m := by
  induction m with
  | nil => simp [alLookup, alKeys]
  | cons p t ih =>
    by_cases hp : p.1 = k
    · simp [alLookup_cons, hp, alKeys]
    · have hk : ¬ (k = p.1) := fun e => hp e.symm
      simp [alLookup_cons, hp, alKeys, ih, hk]

theorem alLookup_eq_some_of_mem {m : List (κ × β)} {p : κ × β}
    (hnd : (alKeys m).Nodup) (hmem : p ∈ m) : alLookup m p.1 = some p.2 := by
  induction m with
  | nil => simp at hmem
  | cons q t ih =>
    rcases List.mem_cons.mp hmem with h | h
    · simp [h, alLookup_cons]
    · have hq : q.1 ≠ p.1 := by
        intro e
        have hin : q.1 ∈ alKeys t := by
          rw [e]
          exact List.mem_map_of_mem _ h
        rw [alKeys] at hnd
        exact (List.nodup_cons.mp hnd).1 hin
      rw [alLookup_cons, if_neg hq]
      rw [alKeys] at hnd
      exact ih (List.nodup_cons.mp hnd).2 h

end AssocLemmas

/-! ## Lemmas: the accumulate characterization -/

section AccCharacterization

variable {κ α β : Type} [DecidableEq κ]

theorem mapAdjust_of_not_mem {m : List (κ × β)} {k : κ} (f : β → β)
    (h : k ∉ alKeys m) : mapAdjust m k f = m := by
  induction m with
  | nil => rfl
  | cons p t ih =>
    have hp : ¬ (p.1 = k) := fun e => h (by simp [alKeys, e])
    have ht : k ∉ alKeys t := fun hk => h (by simp [alKeys] at hk ⊢; exact Or.inr hk)
    simp [mapAdjust, hp]
    simpa [mapAdjust] using ih ht

theorem upsert_of_lookup_some_nodup {m : List (κ × β)} {k : κ} {b : β}
    (d : β) (f : β → β) (hnd : (alKeys m).Nodup) (h : alLookup m k = some b) :
    upsert m k d f = mapAdjust m k f := by
  induction m with
  | nil => simp [alLookup] at h
  | cons p t ih =>
    rw [alLookup_cons] at h
    have hmk : alKeys ((p :: t) : List (κ × β)) = p.1 :: alKeys t := by simp [alKeys]
    rw [hmk] at hnd
    by_cases hp : p.1 = k
    · have ht : k ∉ alKeys t := hp ▸ (List.nodup_cons.mp hnd).1
      simp only [upsert, hp, if_pos rfl, mapAdjust, List.map_cons, if_pos hp]
      have := (mapAdjust_of_not_mem f ht).symm
      rw [mapAdjust] at this
      exact congrArg _ this
    · rw [if_neg hp] at h
      simp only [upsert, hp, ite_false, mapAdjust, List.map_cons, if_neg hp]
      have := ih (List.nodup_cons.mp hnd).2 h
      rw [mapAdjust] at this
      exact congrArg _ this

theorem alKeys_mapAdjust (m : List (κ × β)) (k : κ) (f : β → β) :
    alKeys (mapAdjust m k f) = alKeys m := by
  induction m with
  | nil => rfl
  | cons p t ih =>
    by_cases hp : p.1 = k <;> simp [mapAdjust, alKeys, hp] <;>
      simpa [mapAdjust, alKeys] using ih

theorem alLookup_isNone_of_keys_eq {m m2 : List (κ × β)} (h : alKeys m = alKeys m2)
    (k : κ) : (alLookup m k).isNone = (alLookup m2 k).isNone := by
  rcases h1 : alLookup m k with _ | b <;> rcases h2 : alLookup m2 k with _ | b2 <;> simp
  · have := alLookup_eq_none_iff.mp h1
    rw [h] at this
    rw [alLookup_eq_none_iff.mpr this] at h2
    simp at h2
  · have := alLookup_eq_none_iff.mp h2
    rw [← h] at this
    rw [alLookup_eq_none_iff.mpr this] at h1
    simp at h1

theorem alLookup_singleton (k1 k2 : κ) (v : β) :
    alLookup [(k1, v)] k2 = if k1 = k2 then some v else none := by
  rw [alLookup_cons]
  rfl

/-- The generalized accumulator-split: folding `items` into an existing map
`m` with duplicate-free keys updates each existing entry by its matching
items, and appends, as a fresh accumulation, the items whose key is new. -/
theorem foldl_upsert_split (key : α → κ) (d : α → β) (step : β → α → β) :
    ∀ (items : List α) (m : List (κ × β)), (alKeys m).Nodup →
    items.foldl (fun m a => upsert m (key a) (d a) (fun b => step b a)) m =
      m.map (fun p => (p.1, (items.filter (fun x => key x = p.1)).foldl step p.2))
      ++ accumulate key d step (items.filter (fun x => (alLookup m (key x)).isNone))
  | [], m, _ => by simp [accumulate]
  | a :: items, m, hnd => by
    simp only [List.foldl_cons]
    rcases hsome : alLookup m (key a) with _ | b
    · -- new key: the upsert appends a fresh entry
      rw [upsert_of_lookup_none (d a) (fun b => step b a) hsome]
      have hk : key a ∉ alKeys m := alLookup_eq_none_iff.mp hsome
      have hnd2 : (alKeys (m ++ [(key a, step (d a) a)])).Nodup := by
        simp only [alKeys, List.map_append, List.map_cons, List.map_nil]
        rw [List.nodup_append]
        refine ⟨by simpa [alKeys] using hnd, List.nodup_singleton _, ?_⟩
        intro x hx hx2
        simp at hx2
        rw [hx2] at hx
        exact hk hx
      rw [foldl_upsert_split key d step items _ hnd2, List.map_append]
      have e1 : m.map (fun p => (p.1, (items.filter (fun x => key x = p.1)).foldl step p.2))
          = m.map (fun p => (p.1, ((a :: items).filter (fun x => key x = p.1)).foldl step p.2)) := by
        apply List.map_congr_left
        intro p hp
        have hne : ¬ (key a = p.1) := fun e => hk (e ▸ List.mem_map_of_mem _ hp)
        simp [List.filter_cons, hne]
      rw [e1]
      have e4 : items.filter (fun x => (alLookup (m ++ [(key a, step (d a) a)]) (key x)).isNone)
          = (items.filter (fun x => (alLookup m (key x)).isNone)).filter
              (fun x => ¬ (key x = key a)) := by
        rw [List.filter_filter]
        apply List.filter_congr
        intro x _
        rw [alLookup_append]
        rcases hm : alLookup m (key x) with _ | bx
        · rw [alLookup_singleton]
          by_cases hxk : key x = key a
          · rw [if_pos hxk.symm]
            simp [hxk]
          · rw [if_neg (fun e => hxk e.symm)]
            simp [hxk]
        · simp
      rw [e4]
      -- now expand the right-hand accumulate one step
      have e5 : (a :: items).filter (fun x => (alLookup m (key x)).isNone)
          = a :: items.filter (fun x => (alLookup m (key x)).isNone) := by
        rw [List.filter_cons]
        simp [hsome]
      rw [e5]
      have e6 : accumulate key d step (a :: items.filter (fun x => (alLookup m (key x)).isNone))
          = List.foldl (fun m a => upsert m (key a) (d a) (fun b => step b a))
              [((key a : κ), step (d a) a)]
              (items.filter (fun x => (alLookup m (key x)).isNone)) := by
        simp [accumulate, upsert]
      rw [e6, foldl_upsert_split key d step
        (items.filter (fun x => (alLookup m (key x)).isNone))
        [((key a : κ), step (d a) a)] (by simp [alKeys])]
      have e7 : ((items.filter (fun x => (alLookup m (key x)).isNone)).filter
            (fun x => key x = key a))
          = items.filter (fun x => key x = key a) := by
        rw [List.filter_filter]
        apply List.filter_congr
        intro x _
        by_cases hxk : key x = key a
        · simp [hxk, hsome]
        · simp [hxk]
      have e8 : (items.filter (fun x => (alLookup m (key x)).isNone)).filter
            (fun x => (alLookup [((key a : κ), step (d a) a)] (key x)).isNone)
          = (items.filter (fun x => (alLookup m (key x)).isNone)).filter
              (fun x => ¬ (key x = key a)) := by
        apply List.filter_congr
        intro x _
        rw [alLookup_singleton]
        by_cases hxk : key x = key a
        · rw [if_pos hxk.symm]
          simp [hxk]
        · rw [if_neg (fun e => hxk e.symm)]
          simp [hxk]
      rw [e8]
      simp only [List.map_cons, List.map_nil, e7, List.append_assoc]
    · -- existing key: the unique entry is adjusted in place
      rw [upsert_of_lookup_some_nodup (d a) (fun b => step b a) hnd hsome]
      have hnd2 : (alKeys (mapAdjust m (key a) (fun b => step b a))).Nodup := by
        rw [alKeys_mapAdjust]
        exact hnd
      rw [foldl_upsert_split key d step items _ hnd2]
      congr 1
      · rw [mapAdjust, List.map_map]
        apply List.map_congr_left
        intro p _
        by_cases hp : p.1 = key a
        · have hke : key a = p.1 := hp.symm
          simp only [Function.comp, if_pos hp]
          simp [List.filter_cons, hke]
        · have hke : ¬ (key a = p.1) := fun e => hp e.symm
          simp only [Function.comp, if_neg hp]
          simp [List.filter_cons, hke]
      · congr 1
        have e9 : (a :: items).filter (fun x => (alLookup m (key x)).isNone)
            = items.filter (fun x => (alLookup m (key x)).isNone) := by
          rw [List.filter_cons]
          simp [hsome]
        rw [e9]
        apply List.filter_congr
        intro x _
        rw [alLookup_isNone_of_keys_eq (alKeys_mapAdjust m (key a) (fun b => step b a))]
termination_by items => items.length
decreasing_by
  all_goals
    simp only [List.length_cons]
    first
      | exact Nat.lt_succ_self _
      | exact Nat.lt_succ_of_le (List.length_filter_le _ _)

theorem firstDedupByAux_append (key : α → κ) (l : List α) : ∀ (s t : List κ),
    firstDedupByAux key (s ++ t) l
      = firstDedupByAux key s (l.filter (fun x => key x ∉ t)) := by
  induction l with
  | nil => intro s t; rfl
  | cons a as ih =>
    intro s t
    by_cases hts : key a ∈ t
    · have hm : key a ∈ s ++ t := List.mem_append.mpr (Or.inr hts)
      rw [firstDedupByAux, if_pos hm, List.filter_cons, if_neg (by simp [hts])]
      exact ih s t
    · rw [List.filter_cons, if_pos (by simp [hts])]
      by_cases hss : key a ∈ s
      · have hm : key a ∈ s ++ t := List.mem_append.mpr (Or.inl hss)
        rw [firstDedupByAux, if_pos hm, firstDedupByAux, if_pos hss]
        exact ih s t
      · have hm : key a ∉ s ++ t := by
          intro h
          rcases List.mem_append.mp h with h | h
          exacts [hss h, hts h]
        rw [firstDedupByAux, if_neg hm, firstDedupByAux, if_neg hss]
        have : (key a :: (s ++ t)) = (key a :: s) ++ t := rfl
        rw [this, ih (key a :: s) t]

theorem firstDedupBy_cons (key : α → κ) (a : α) (as : List α) :
    firstDedupBy key (a :: as)
      = a :: firstDedupBy key (as.filter (fun x => ¬ (key x = key a))) := by
  rw [firstDedupBy, firstDedupByAux, if_neg (List.not_mem_nil _)]
  rw [firstDedupBy]
  rw [show (key a :: ([] : List κ)) = ([] : List κ) ++ [key a] from rfl]
  rw [firstDedupByAux_append key as [] [key a]]
  have h2 : as.filter (fun x => key x ∉ [key a]) = as.filter (fun x => ¬ (key x = key a)) := by
    apply List.filter_congr
    intro x _
    simp
  rw [h2]

theorem mem_of_mem_firstDedupByAux {key : α → κ} {seen : List κ} {l : List α}
    {x : α} (h : x ∈ firstDedupByAux key seen l) : x ∈ l := by
  induction l generalizing seen with
  | nil => simpa [firstDedupByAux] using h
  | cons a as ih =>
    rw [firstDedupByAux] at h
    by_cases hs : key a ∈ seen
    · rw [if_pos hs] at h
      exact List.mem_cons_of_mem a (ih h)
    · rw [if_neg hs] at h
      rcases List.mem_cons.mp h with h | h
      · exact h ▸ List.mem_cons_self a as
      · exact List.mem_cons_of_mem a (ih h)

theorem mem_of_mem_firstDedupBy {key : α → κ} {l : List α} {x : α}
    (h : x ∈ firstDedupBy key l) : x ∈ l :=
  mem_of_mem_firstDedupByAux h

theorem key_not_in_seen_of_mem_firstDedupByAux {key : α → κ} {seen : List κ}
    {l : List α} {x : α} (h : x ∈ firstDedupByAux key seen l) : key x ∉ seen := by
  induction l generalizing seen with
  | nil => simp [firstDedupByAux] at h
  | cons a as ih =>
    rw [firstDedupByAux] at h
    by_cases hs : key a ∈ seen
    · rw [if_pos hs] at h
      exact ih h
    · rw [if_neg hs] at h
      rcases List.mem_cons.mp h with h | h
      · exact h ▸ hs
      · intro hx
        exact ih h (List.mem_cons_of_mem _ hx)

theorem nodup_keys_firstDedupByAux (key : α → κ) (seen : List κ) (l : List α) :
    ((firstDedupByAux key seen l).map key).Nodup := by
  induction l generalizing seen with
  | nil => simp [firstDedupByAux]
  | cons a as ih =>
    rw [firstDedupByAux]
    by_cases hs : key a ∈ seen
    · rw [if_pos hs]
      exact ih seen
    · rw [if_neg hs]
      rw [List.map_cons, List.nodup_cons]
      refine ⟨?_, ih (key a :: seen)⟩
      intro hmem
      rcases List.mem_map.mp hmem with ⟨y, hy, hky⟩
      exact key_not_in_seen_of_mem_firstDedupByAux hy (by rw [hky]; exact List.mem_cons_self _ _)

theorem nodup_keys_firstDedupBy (key : α → κ) (l : List α) :
    ((firstDedupBy key l).map key).Nodup := nodup_keys_firstDedupByAux key [] l

/-- The full characterization of `accumulate`: one entry per key class, in
first-occurrence order, whose value folds the class's items from the init of
the class's first item. -/
theorem accumulate_eq (key : α → κ) (d : α → β) (step : β → α → β) :
    ∀ (items : List α),
    accumulate key d step items = (firstDedupBy key items).map (fun a0 =>
      (key a0, (items.filter (fun x => key x = key a0)).foldl step (d a0)))
  | [] => by simp [accumulate, firstDedupBy, firstDedupByAux]
  | a :: items => by
    have e0 : accumulate key d step (a :: items)
        = List.foldl (fun m a => upsert m (key a) (d a) (fun b => step b a))
            [((key a : κ), step (d a) a)] items := by
      simp [accumulate, upsert]
    rw [e0, foldl_upsert_split key d step items [((key a : κ), step (d a) a)]
      (by simp [alKeys])]
    have e1 : items.filter (fun x => (alLookup [((key a : κ), step (d a) a)] (key x)).isNone)
        = items.filter (fun x => ¬ (key x = key a)) := by
      apply List.filter_congr
      intro x _
      rw [alLookup_singleton]
      by_cases hxk : key x = key a
      · rw [if_pos hxk.symm]
        simp [hxk]
      · rw [if_neg (fun e => hxk e.symm)]
        simp [hxk]
    rw [e1, accumulate_eq key d step (items.filter (fun x => ¬ (key x = key a)))]
    rw [firstDedupBy_cons, List.map_cons]
    simp only [List.map_cons, List.map_nil]
    rw [List.singleton_append]
    congr 1
    · rw [List.filter_cons]
      simp
    · apply List.map_congr_left
      intro x hx
      have hxa : ¬ (key x = key a) := by
        have := List.of_mem_filter (mem_of_mem_firstDedupBy hx)
        simpa using this
      have hax : ¬ (key a = key x) := fun e => hxa e.symm
      have t1 : (a :: items).filter (fun y => key y = key x)
          = items.filter (fun y => key y = key x) := by
        rw [List.filter_cons]
        simp [hax]
      have t2 : (items.filter (fun y => ¬ (key y = key a))).filter (fun y => key y = key x)
          = items.filter (fun y => key y = key x) := by
        rw [List.filter_filter]
        apply List.filter_congr
        intro y _
        by_cases hyx : key y = key x
        · simp [hyx, hxa]
        · simp [hyx]
      rw [t1, t2]
termination_by items => items.length
decreasing_by
  simp only [List.length_cons]
  exact Nat.lt_succ_of_le (List.length_filter_le _ _)

theorem alKeys_accumulate_nodup (key : α → κ) (d : α → β) (step : β → α → β)
    (items : List α) : (alKeys (accumulate key d step items)).Nodup := by
  rw [accumulate_eq, alKeys, List.map_map]
  have : ((fun p => p.1) ∘ (fun a0 => ((key a0 : κ),
      (items.filter (fun x => key x = key a0)).foldl step (d a0)))) = key := rfl
  rw [this]
  exact nodup_keys_firstDedupBy key items

theorem mem_accumulate_iff {key : α → κ} {d : α → β} {step : β → α → β}
    {items : List α} {k : κ} {b : β} :
    (k, b) ∈ accumulate key d step items ↔
      ∃ a0 ∈ firstDedupBy key items, k = key a0 ∧
        b = (items.filter (fun x => key x = key a0)).foldl step (d a0) := by
  rw [accumulate_eq, List.mem_map]
  constructor
  · rintro ⟨a0, h0, he⟩
    exact ⟨a0, h0, congrArg Prod.fst he.symm, congrArg Prod.snd he.symm⟩
  · rintro ⟨a0, h0, he1, he2⟩
    refine ⟨a0, h0, ?_⟩
    subst he1
    subst he2
    rfl

theorem head_filter_firstDedupBy (key : α → κ) :
    ∀ (l : List α), ∀ x ∈ firstDedupBy key l,
      (l.filter (fun y => key y = key x)).head? = some x
  | [] => by simp [firstDedupBy, firstDedupByAux]
  | a :: as => by
    intro x hx
    rw [firstDedupBy_cons] at hx
    rcases List.mem_cons.mp hx with h | h
    · subst h
      rw [List.filter_cons]
      simp
    · have hxa : ¬ (key x = key a) := by
        have := List.of_mem_filter (mem_of_mem_firstDedupBy h)
        simpa using this
      have hax : ¬ (key a = key x) := fun e => hxa e.symm
      rw [List.filter_cons, if_neg (by simpa using hax)]
      have t2 : as.filter (fun y => key y = key x)
          = (as.filter (fun y => ¬ (key y = key a))).filter (fun y => key y = key x) := by
        rw [List.filter_filter]
        apply Eq.symm
        apply List.filter_congr
        intro y _
        by_cases hyx : key y = key x
        · simp [hyx, hxa]
        · simp [hyx]
      rw [t2]
      exact head_filter_firstDedupBy key (as.filter (fun y => ¬ (key y = key a))) x h
termination_by l => l.length
decreasing_by
  simp only [List.length_cons]
  exact Nat.lt_succ_of_le (List.length_filter_le _ _)

theorem countP_split (p q qn : α → Bool) (hqn : ∀ x, qn x = !(q x)) :
    ∀ (l : List α), l.countP p = (l.filter q).countP p + (l.filter qn).countP p
  | [] => by simp
  | a :: t => by
    have ih := countP_split p q qn hqn t
    by_cases hq : q a
    · have hqn2 : qn a = false := by rw [hqn, hq]; rfl
      by_cases hp : p a <;>
        simp [List.filter_cons, List.countP_cons, hq, hqn2, hp, ih] <;> omega
    · have hqn2 : qn a = true := by rw [hqn]; simp [hq]
      by_cases hp : p a <;>
        simp [List.filter_cons, List.countP_cons, hq, hqn2, hp, ih] <;> omega

/-- Partition sum: summing, over the distinct key classes satisfying a
class-invariant predicate, the number of items of the class, counts exactly
the items satisfying the predicate. -/
theorem sum_over_firstDedupBy (key : α → κ) (P : α → Bool) :
    ∀ (items : List α), (∀ x ∈ items, ∀ y ∈ items, key x = key y → P x = P y) →
    (((firstDedupBy key items).filter P).map
      (fun a0 => items.countP (fun x => key x = key a0))).sum = items.countP P
  | [], _ => by simp [firstDedupBy, firstDedupByAux]
  | a :: items, hP => by
    rw [firstDedupBy_cons]
    have hsub : ∀ x ∈ items.filter (fun y => ¬ (key y = key a)),
        ∀ y ∈ items.filter (fun y => ¬ (key y = key a)), key x = key y → P x = P y := by
      intro x hx y hy he
      exact hP x (List.mem_cons_of_mem a (List.mem_of_mem_filter hx))
        y (List.mem_cons_of_mem a (List.mem_of_mem_filter hy)) he
    have hIH := sum_over_firstDedupBy key P
      (items.filter (fun y => ¬ (key y = key a))) hsub
    have hrest : ∀ a0 ∈ (firstDedupBy key (items.filter (fun y => ¬ (key y = key a)))).filter P,
        (a :: items).countP (fun x => key x = key a0)
          = (items.filter (fun y => ¬ (key y = key a))).countP (fun x => key x = key a0) := by
      intro a0 ha0
      have ha0m := List.mem_of_mem_filter ha0
      have hxa : ¬ (key a0 = key a) := by
        have := List.of_mem_filter (mem_of_mem_firstDedupBy ha0m)
        simpa using this
      have hax : ¬ (key a = key a0) := fun e => hxa e.symm
      rw [List.countP_cons, if_neg (by simpa using hax)]
      rw [List.countP_filter]
      simp only [Nat.add_zero]
      apply List.countP_congr
      intro y _
      by_cases hyx : key y = key a0
      · simp [hyx, hxa]
      · simp [hyx]
    have hclass : (items.filter (fun y => key y = key a)).countP P
        = if P a then items.countP (fun y => key y = key a) else 0 := by
      by_cases hPa : P a
      · rw [if_pos hPa]
        have h1 : (items.filter (fun y => key y = key a)).countP P
            = (items.filter (fun y => key y = key a)).length := by
          apply List.countP_eq_length.mpr
          intro y hy
          have hyk : key y = key a := by simpa using List.of_mem_filter hy
          rw [hP y (List.mem_cons_of_mem a (List.mem_of_mem_filter hy)) a
            (List.mem_cons_self a items) hyk]
          exact hPa
        rw [h1, ← List.countP_eq_length_filter]
      · rw [if_neg hPa]
        rw [List.countP_eq_zero]
        intro y hy
        have hyk : key y = key a := by simpa using List.of_mem_filter hy
        rw [hP y (List.mem_cons_of_mem a (List.mem_of_mem_filter hy)) a
          (List.mem_cons_self a items) hyk]
        simpa using hPa
    have hsplit := countP_split P (fun y => key y = key a)
      (fun y => ¬ (key y = key a))
      (by intro x; by_cases h : key x = key a <;> simp [h]) items
    by_cases hPa : P a
    · rw [List.filter_cons, if_pos (by simpa using hPa)]
      rw [List.map_cons, List.sum_cons]
      rw [List.map_congr_left hrest, hIH]
      rw [List.countP_cons, if_pos (by simp), List.countP_cons, if_pos (by simpa using hPa)]
      rw [hclass, if_pos hPa] at hsplit
      omega
    · rw [List.filter_cons, if_neg (by simpa using hPa)]
      rw [List.map_congr_left hrest, hIH]
      rw [List.countP_cons, if_neg (by simpa using hPa)]
      rw [hclass, if_neg hPa] at hsplit
      omega
termination_by items => items.length
decreasing_by
  simp only [List.length_cons]
  exact Nat.lt_succ_of_le (List.length_filter_le _ _)

end AccCharacterization

/-! ## Lemmas: counting adjacent pairs of a walk -/

section WalkCounting

variable {γ δ : Type}

theorem countP_zip_tail_fst [DecidableEq γ] :
    ∀ (l : List γ) (a : γ),
      (l.zip l.tail).countP (fun p => p.1 = a) = l.dropLast.countP (fun x => x = a)
  | [], _ => by simp
  | [x], _ => by simp
  | x :: y :: t, a => by
    have ih := countP_zip_tail_fst (y :: t) a
    simp only [List.tail_cons, List.zip_cons_cons, List.countP_cons] at *
    rw [List.dropLast_cons₂, List.countP_cons]
    omega

theorem countP_zip_tail_snd [DecidableEq γ] :
    ∀ (l : List γ) (a : γ),
      (l.zip l.tail).countP (fun p => p.2 = a) = l.tail.countP (fun x => x = a)
  | [], _ => by simp
  | [x], _ => by simp
  | x :: y :: t, a => by
    have ih := countP_zip_tail_snd (y :: t) a
    simp only [List.tail_cons, List.zip_cons_cons, List.countP_cons] at *
    omega

theorem countP_tail_eq_dropLast [DecidableEq γ] (l : List γ) (a : γ)
    (h1 : l.head? ≠ some a) (h2 : l.getLast? ≠ some a) :
    l.tail.countP (fun x => x = a) = l.dropLast.countP (fun x => x = a) := by
  match l with
  | [] => rfl
  | x :: t =>
    have hx : ¬ (x = a) := by
      intro e
      exact h1 (by simp [e])
    have e1 : ((x :: t).countP (fun y => y = a)) = t.countP (fun y => y = a) := by
      rw [List.countP_cons]
      simp [hx]
    have e2 : ((x :: t).countP (fun y => y = a))
        = ((x :: t).dropLast.countP (fun y => y = a)) := by
      conv_lhs => rw [← List.dropLast_append_getLast (List.cons_ne_nil x t)]
      rw [List.countP_append]
      have hg : ¬ ((x :: t).getLast (List.cons_ne_nil x t) = a) := by
        intro e
        apply h2
        rw [List.getLast?_eq_getLast _ (List.cons_ne_nil x t), e]
      simp [hg]
    simp only [List.tail_cons]
    omega

theorem adjPairs_map (f : γ → String) (l : List γ) :
    adjPairs (l.map f) = (l.zip l.tail).map (fun p => (f p.1, f p.2)) := by
  rw [adjPairs, ← List.map_tail, List.zip_map]
  rfl

theorem countP_flatMap (g : γ → List δ) (p : δ → Bool) :
    ∀ (l : List γ),
      (l.flatMap g).countP p = (l.map (fun x => (g x).countP p)).sum
  | [] => by simp
  | x :: t => by
    rw [List.flatMap_cons, List.countP_append, List.map_cons, List.sum_cons,
      countP_flatMap g p t]

theorem length_filterMap_if (p : γ → Prop) [DecidablePred p] (g : γ → δ) :
    ∀ (l : List γ),
      (l.filterMap (fun x => if p x then some (g x) else none)).length
        = l.countP (fun x => p x)
  | [] => by simp
  | x :: t => by
    by_cases hx : p x <;>
      simp [List.filterMap_cons, List.countP_cons, hx, length_filterMap_if p g t]

end WalkCounting

/-! ## Lemmas: the directly-follows graph -/

theorem foldl_add_count (es : List DFGEdge) (n : ℕ) :
    es.foldl (fun s e => s + e.count) n = n + (es.map (fun e => e.count)).sum := by
  induction es generalizing n with
  | nil => simp
  | cons e t ih => simp [ih, Nat.add_assoc]

theorem foldl_outAcc_snd (es : List DFGEdge) (acc : List (String × ℕ) × ℕ) :
    (es.foldl (fun (acc : List (String × ℕ) × ℕ) e =>
      (recSet acc.1 e.to_ e.count, acc.2 + e.count)) acc).2
      = acc.2 + (es.map (fun e => e.count)).sum := by
  induction es generalizing acc with
  | nil => simp
  | cons e t ih => simp [ih, Nat.add_assoc]

theorem foldl_edgeStep_count (l : List EdgeOcc) (b : DFGEdge) :
    (l.foldl edgeStep b).count = b.count + l.length := by
  induction l generalizing b with
  | nil => simp
  | cons o t ih => simp [ih, edgeStep]; omega

theorem foldl_edgeStep_from (l : List EdgeOcc) (b : DFGEdge) :
    (l.foldl edgeStep b).from_ = b.from_ := by
  induction l generalizing b with
  | nil => rfl
  | cons o t ih => simp [ih, edgeStep]

theorem foldl_edgeStep_to (l : List EdgeOcc) (b : DFGEdge) :
    (l.foldl edgeStep b).to_ = b.to_ := by
  induction l generalizing b with
  | nil => rfl
  | cons o t ih => simp [ih, edgeStep]

theorem sum_map_const_nat (l : List α) (m : ℕ) :
    (l.map (fun _ => m)).sum = l.length * m := by
  induction l with
  | nil => simp
  | cons x t ih => simp [ih, Nat.succ_mul, Nat.add_comm]

/-- The items of the DFG edge accumulation. -/
def occKey (o : EdgeOcc) : String := edgeKey o.from_ o.to_

/-- The edge list of the built DFG. -/
theorem dfg_edges_eq (cases : List ProcessCase) :
    (buildDirectlyFollowsGraph cases).edges
      = (firstDedupBy occKey (dfgOccs cases)).map (fun o0 =>
          ((dfgOccs cases).filter (fun o => occKey o = occKey o0)).foldl
            edgeStep (edgeInit o0)) := by
  show ((accumulate (fun o => edgeKey o.from_ o.to_) edgeInit edgeStep
    (dfgOccs cases)).map (fun p => p.2)) = _
  rw [show (fun o => edgeKey o.from_ o.to_) = occKey from rfl]
  rw [accumulate_eq, List.map_map]
  rfl

/-- Key-injectivity of the string edge keys on the occurrences of a case
list: distinct adjacent pairs never collide on `` `${from}->${to}` ``. -/
def EdgeKeyInj (cases : List ProcessCase) : Prop :=
  ∀ o1 ∈ dfgOccs cases, ∀ o2 ∈ dfgOccs cases,
    occKey o1 = occKey o2 → o1.from_ = o2.from_ ∧ o1.to_ = o2.to_

/-- Under key injectivity, the total count of the edges into `a` is the
number of adjacent-pair occurrences ending at `a`. -/
theorem sum_incoming_counts (cases : List ProcessCase) (hinj : EdgeKeyInj cases)
    (a : String) :
    ((((buildDirectlyFollowsGraph cases).edges.filter (fun e => e.to_ = a)).map
      (fun e => e.count)).sum) = (dfgOccs cases).countP (fun o => o.to_ = a) := by
  rw [dfg_edges_eq, List.filter_map, List.map_map]
  have e2 : (firstDedupBy occKey (dfgOccs cases)).filter
        ((fun e => decide (e.to_ = a)) ∘ (fun o0 => ((dfgOccs cases).filter
          (fun o => occKey o = occKey o0)).foldl edgeStep (edgeInit o0)))
      = (firstDedupBy occKey (dfgOccs cases)).filter (fun o0 => o0.to_ = a) := by
    apply List.filter_congr
    intro o0 _
    simp only [Function.comp_apply]
    rw [foldl_edgeStep_to]
    rfl
  rw [e2]
  have e3 : ((firstDedupBy occKey (dfgOccs cases)).filter (fun o0 => o0.to_ = a)).map
        ((fun e => e.count) ∘ (fun o0 => ((dfgOccs cases).filter
          (fun o => occKey o = occKey o0)).foldl edgeStep (edgeInit o0)))
      = ((firstDedupBy occKey (dfgOccs cases)).filter (fun o0 => o0.to_ = a)).map
          (fun o0 => (dfgOccs cases).countP (fun o => occKey o = occKey o0)) := by
    apply List.map_congr_left
    intro o0 _
    simp only [Function.comp_apply]
    rw [foldl_edgeStep_count]
    rw [show (edgeInit o0).count = 0 from rfl, Nat.zero_add]
    exact (List.countP_eq_length_filter _ _).symm
  rw [e3]
  apply sum_over_firstDedupBy occKey (fun o => o.to_ = a) (dfgOccs cases)
  intro x hx y hy he
  have := hinj x hx y hy he
  simp [this.2]

/-- Under key injectivity, the total count of the edges out of `a` is the
number of adjacent-pair occurrences starting at `a`. -/
theorem sum_outgoing_counts (cases : List ProcessCase) (hinj : EdgeKeyInj cases)
    (a : String) :
    ((((buildDirectlyFollowsGraph cases).edges.filter (fun e => e.from_ = a)).map
      (fun e => e.count)).sum) = (dfgOccs cases).countP (fun o => o.from_ = a) := by
  rw [dfg_edges_eq, List.filter_map, List.map_map]
  have e2 : (firstDedupBy occKey (dfgOccs cases)).filter
        ((fun e => decide (e.from_ = a)) ∘ (fun o0 => ((dfgOccs cases).filter
          (fun o => occKey o = occKey o0)).foldl edgeStep (edgeInit o0)))
      = (firstDedupBy occKey (dfgOccs cases)).filter (fun o0 => o0.from_ = a) := by
    apply List.filter_congr
    intro o0 _
    simp only [Function.comp_apply]
    rw [foldl_edgeStep_from]
    rfl
  rw [e2]
  have e3 : ((firstDedupBy occKey (dfgOccs cases)).filter (fun o0 => o0.from_ = a)).map
        ((fun e => e.count) ∘ (fun o0 => ((dfgOccs cases).filter
          (fun o => occKey o = occKey o0)).foldl edgeStep (edgeInit o0)))
      = ((firstDedupBy occKey (dfgOccs cases)).filter (fun o0 => o0.from_ = a)).map
          (fun o0 => (dfgOccs cases).countP (fun o => occKey o = occKey o0)) := by
    apply List.map_congr_left
    intro o0 _
    simp only [Function.comp_apply]
    rw [foldl_edgeStep_count]
    rw [show (edgeInit o0).count = 0 from rfl, Nat.zero_add]
    exact (List.countP_eq_length_filter _ _).symm
  rw [e3]
  apply sum_over_firstDedupBy occKey (fun o => o.from_ = a) (dfgOccs cases)
  intro x hx y hy he
  have := hinj x hx y hy he
  simp [this.1]

/-- The per-case occurrence counts ending at `a`: the count of `a` in the
tail of the case's sequence. -/
theorem countP_dfgOccs_to (cases : List ProcessCase) (a : String) :
    (dfgOccs cases).countP (fun o => o.to_ = a)
      = (cases.map (fun c => c.sequence.tail.countP (fun x => x = a))).sum := by
  rw [dfgOccs, countP_flatMap]
  congr 1
  apply List.map_congr_left
  intro c _
  rw [List.countP_map]
  have : ((fun o => decide (o.to_ = a)) ∘ mkEdgeOcc c) = (fun p => decide (p.2 = a)) := rfl
  rw [this]
  have h2 : adjPairs c.sequence = c.sequence.zip c.sequence.tail := rfl
  rw [h2, countP_zip_tail_snd]

theorem countP_dfgOccs_from (cases : List ProcessCase) (a : String) :
    (dfgOccs cases).countP (fun o => o.from_ = a)
      = (cases.map (fun c => c.sequence.dropLast.countP (fun x => x = a))).sum := by
  rw [dfgOccs, countP_flatMap]
  congr 1
  apply List.map_congr_left
  intro c _
  rw [List.countP_map]
  have : ((fun o => decide (o.from_ = a)) ∘ mkEdgeOcc c) = (fun p => decide (p.1 = a)) := rfl
  rw [this]
  have h2 : adjPairs c.sequence = c.sequence.zip c.sequence.tail := rfl
  rw [h2, countP_zip_tail_fst]

/-- Membership in the start-activity set. -/
theorem mem_startActivities {cases : List ProcessCase} {a : String} :
    a ∈ (buildDirectlyFollowsGraph cases).startActivities ↔
      ∃ c ∈ cases, c.sequence.head? = some a := by
  show a ∈ cases.foldl (fun acc c =>
    match c.sequence.head? with | some h => setInsert acc h | none => acc) [] ↔ _
  have H : ∀ (l : List ProcessCase) (acc : List String),
      a ∈ l.foldl (fun acc c =>
        match c.sequence.head? with | some h => setInsert acc h | none => acc) acc ↔
      a ∈ acc ∨ ∃ c ∈ l, c.sequence.head? = some a := by
    intro l
    induction l with
    | nil => simp
    | cons c t ih =>
      intro acc
      rcases hh : c.sequence.head? with _ | h
      · rw [List.foldl_cons, hh]
        rw [ih acc]
        constructor
        · rintro (h1 | ⟨c2, hc2, he⟩)
          · exact Or.inl h1
          · exact Or.inr ⟨c2, List.mem_cons_of_mem c hc2, he⟩
        · rintro (h1 | ⟨c2, hc2, he⟩)
          · exact Or.inl h1
          · rcases List.mem_cons.mp hc2 with h2 | h2
            · rw [h2] at he
              rw [he] at hh
              cases hh
            · exact Or.inr ⟨c2, h2, he⟩
      · rw [List.foldl_cons, hh]
        rw [ih (setInsert acc h)]
        constructor
        · rintro (h1 | ⟨c2, hc2, he⟩)
          · rcases mem_setInsert.mp h1 with h2 | h2
            · exact Or.inl h2
            · exact Or.inr ⟨c, List.mem_cons_self c t, by rw [hh, h2]⟩
          · exact Or.inr ⟨c2, List.mem_cons_of_mem c hc2, he⟩
        · rintro (h1 | ⟨c2, hc2, he⟩)
          · exact Or.inl (mem_setInsert.mpr (Or.inl h1))
          · rcases List.mem_cons.mp hc2 with h2 | h2
            · rw [h2] at he
              rw [he] at hh
              injection hh with hh2
              exact Or.inl (mem_setInsert.mpr (Or.inr hh2))
            · exact Or.inr ⟨c2, h2, he⟩
  rw [H cases []]
  simp

/-- Membership in the end-activity set. -/
theorem mem_endActivities {cases : List ProcessCase} {a : String} :
    a ∈ (buildDirectlyFollowsGraph cases).endActivities ↔
      ∃ c ∈ cases, c.sequence.getLast? = some a := by
  show a ∈ cases.foldl (fun acc c =>
    match c.sequence.getLast? with | some h => setInsert acc h | none => acc) [] ↔ _
  have H : ∀ (l : List ProcessCase) (acc : List String),
      a ∈ l.foldl (fun acc c =>
        match c.sequence.getLast? with | some h => setInsert acc h | none => acc) acc ↔
      a ∈ acc ∨ ∃ c ∈ l, c.sequence.getLast? = some a := by
    intro l
    induction l with
    | nil => simp
    | cons c t ih =>
      intro acc
      rcases hh : c.sequence.getLast? with _ | h
      · rw [List.foldl_cons, hh]
        rw [ih acc]
        constructor
        · rintro (h1 | ⟨c2, hc2, he⟩)
          · exact Or.inl h1
          · exact Or.inr ⟨c2, List.mem_cons_of_mem c hc2, he⟩
        · rintro (h1 | ⟨c2, hc2, he⟩)
          · exact Or.inl h1
          · rcases List.mem_cons.mp hc2 with h2 | h2
            · rw [h2] at he
              rw [he] at hh
              cases hh
            · exact Or.inr ⟨c2, h2, he⟩
      · rw [List.foldl_cons, hh]
        rw [ih (setInsert acc h)]
        constructor
        · rintro (h1 | ⟨c2, hc2, he⟩)
          · rcases mem_setInsert.mp h1 with h2 | h2
            · exact Or.inl h2
            · exact Or.inr ⟨c, List.mem_cons_self c t, by rw [hh, h2]⟩
          · exact Or.inr ⟨c2, List.mem_cons_of_mem c hc2, he⟩
        · rintro (h1 | ⟨c2, hc2, he⟩)
          · exact Or.inl (mem_setInsert.mpr (Or.inl h1))
          · rcases List.mem_cons.mp hc2 with h2 | h2
            · rw [h2] at he
              rw [he] at hh
              injection hh with hh2
              exact Or.inl (mem_setInsert.mpr (Or.inr hh2))
            · exact Or.inr ⟨c2, h2, he⟩
  rw [H cases []]
  simp

/-- The core DFG conservation fact: under key injectivity, an activity that
is neither a start nor an end activity has equal incoming and outgoing edge
count totals. -/
theorem dfg_intermediate_check_balanced (cases : List ProcessCase)
    (hinj : EdgeKeyInj cases) :
    ∀ chk ∈ checkDFGConservation (buildDirectlyFollowsGraph cases),
      chk.node ∉ (buildDirectlyFollowsGraph cases).startActivities →
      chk.node ∉ (buildDirectlyFollowsGraph cases).endActivities →
      chk.is_balanced = true := by
  intro chk hchk hs he
  rw [checkDFGConservation, List.mem_map] at hchk
  obtain ⟨p, hp, hpe⟩ := hchk
  have hnode : chk.node = p.1 := by rw [← hpe]
  rw [hnode] at hs he
  have hin : p.2.incomingEdges
      = (buildDirectlyFollowsGraph cases).edges.filter (fun e => e.to_ = p.1) := by
    have hp2 := hp
    rw [buildDirectlyFollowsGraph] at hp2
    simp only [List.mem_map] at hp2
    obtain ⟨q, _, hqe⟩ := hp2
    have h1 : p.2 = { q.2 with
        incomingEdges := (buildDirectlyFollowsGraph cases).edges.filter (fun e => e.to_ = q.1),
        outgoingEdges := (buildDirectlyFollowsGraph cases).edges.filter (fun e => e.from_ = q.1) } := by
      rw [← hqe]
      rfl
    have h2 : p.1 = q.1 := by rw [← hqe]
    rw [h1, h2]
  have hout : p.2.outgoingEdges
      = (buildDirectlyFollowsGraph cases).edges.filter (fun e => e.from_ = p.1) := by
    have hp2 := hp
    rw [buildDirectlyFollowsGraph] at hp2
    simp only [List.mem_map] at hp2
    obtain ⟨q, _, hqe⟩ := hp2
    have h1 : p.2 = { q.2 with
        incomingEdges := (buildDirectlyFollowsGraph cases).edges.filter (fun e => e.to_ = q.1),
        outgoingEdges := (buildDirectlyFollowsGraph cases).edges.filter (fun e => e.from_ = q.1) } := by
      rw [← hqe]
      rfl
    have h2 : p.1 = q.1 := by rw [← hqe]
    rw [h1, h2]
  have hbal : (p.2.incomingEdges.foldl (fun s e => s + e.count) (0 : ℕ))
      = (p.2.outgoingEdges.foldl
          (fun (acc : List (String × ℕ) × ℕ) e =>
            (recSet acc.1 e.to_ e.count, acc.2 + e.count)) ([], 0)).2 := by
    rw [foldl_add_count, foldl_outAcc_snd, hin, hout]
    simp only [Nat.zero_add]
    rw [sum_incoming_counts cases hinj p.1, sum_outgoing_counts cases hinj p.1,
      countP_dfgOccs_to, countP_dfgOccs_from]
    congr 1
    apply List.map_congr_left
    intro c hc
    apply countP_tail_eq_dropLast
    · intro hh
      exact hs (mem_startActivities.mpr ⟨c, hc, hh⟩)
    · intro hh
      exact he (mem_endActivities.mpr ⟨c, hc, hh⟩)
  rw [← hpe]
  simp [hs, he, hbal]

/-! ## Lemmas: variant extraction and variant conservation -/

section VariantLemmas

variable {κ α β γ δ : Type} [DecidableEq κ]

theorem alLookup_mapAdjust_self (m : List (κ × β)) (k : κ) (f : β → β) :
    alLookup (mapAdjust m k f) k = (alLookup m k).map f := by
  induction m with
  | nil => rfl
  | cons p t ih =>
    by_cases h : p.1 = k
    · simp only [mapAdjust, List.map_cons, if_pos h, alLookup]
      rw [List.find?_cons_of_pos _ (by simpa using h),
        List.find?_cons_of_pos _ (by simpa using h)]
      rfl
    · simp only [mapAdjust, List.map_cons, if_neg h, alLookup] at ih ⊢
      rw [List.find?_cons_of_neg _ (by simpa using h),
        List.find?_cons_of_neg _ (by simpa using h)]
      exact ih

theorem alLookup_mapAdjust_ne (m : List (κ × β)) {k k2 : κ} (f : β → β)
    (h : k2 ≠ k) :
    alLookup (mapAdjust m k f) k2 = alLookup m k2 := by
  induction m with
  | nil => rfl
  | cons p t ih =>
    by_cases hp : p.1 = k
    · have hp2 : ¬ (p.1 = k2) := by rw [hp]; exact fun e => h e.symm
      simp only [mapAdjust, List.map_cons, if_pos hp, alLookup] at ih ⊢
      rw [List.find?_cons_of_neg _ (by simpa using hp2),
        List.find?_cons_of_neg _ (by simpa using hp2)]
      exact ih
    · simp only [mapAdjust, List.map_cons, if_neg hp, alLookup] at ih ⊢
      by_cases hp2 : p.1 = k2
      · rw [List.find?_cons_of_pos _ (by simpa using hp2),
          List.find?_cons_of_pos _ (by simpa using hp2)]
      · rw [List.find?_cons_of_neg _ (by simpa using hp2),
          List.find?_cons_of_neg _ (by simpa using hp2)]
        exact ih

/-- One iteration of the transition-count loop of `checkVariantConservation`,
seen through a lookup. -/
theorem alLookup_transStep (m : List (String × ℕ × ℕ)) (t : Transition) (s : String) :
    alLookup (mapAdjust (mapAdjust m t.from_ (fun c => (c.1, c.2 + t.count)))
      t.to_ (fun c => (c.1 + t.count, c.2))) s
    = (alLookup m s).map (fun b =>
        (b.1 + (if t.to_ = s then t.count else 0),
         b.2 + (if t.from_ = s then t.count else 0))) := by
  by_cases hto : t.to_ = s
  · subst hto
    rw [alLookup_mapAdjust_self]
    by_cases hfrom : t.from_ = t.to_
    · rw [hfrom, alLookup_mapAdjust_self]
      cases h : alLookup m t.to_ <;> simp [hfrom]
    · rw [alLookup_mapAdjust_ne _ _ (Ne.symm hfrom)]
      cases h : alLookup m t.to_ <;> simp [hfrom]
  · rw [alLookup_mapAdjust_ne _ _ (Ne.symm hto)]
    by_cases hfrom : t.from_ = s
    · subst hfrom
      rw [alLookup_mapAdjust_self]
      cases h : alLookup m t.from_ <;> simp [hto]
    · rw [alLookup_mapAdjust_ne _ _ (Ne.symm hfrom)]
      cases h : alLookup m s <;> simp [hto, hfrom]

/-- The transition-count loop of `checkVariantConservation`, through a
lookup: it adds the incoming and outgoing count totals to the entry. -/
theorem alLookup_foldl_transitions (ts : List Transition) :
    ∀ (m : List (String × ℕ × ℕ)) (s : String),
    alLookup (ts.foldl (fun m t =>
      mapAdjust (mapAdjust m t.from_ (fun c => (c.1, c.2 + t.count)))
        t.to_ (fun c => (c.1 + t.count, c.2))) m) s
    = (alLookup m s).map (fun b =>
        (b.1 + ((ts.filter (fun t => t.to_ = s)).map (fun t => t.count)).sum,
         b.2 + ((ts.filter (fun t => t.from_ = s)).map (fun t => t.count)).sum)) := by
  induction ts with
  | nil =>
    intro m s
    cases h : alLookup m s <;> simp [h]
  | cons t ts ih =>
    intro m s
    rw [List.foldl_cons, ih, alLookup_transStep]
    cases h : alLookup m s
    · rfl
    · simp only [Option.map_some', List.filter_cons]
      by_cases h1 : t.to_ = s <;> by_cases h2 : t.from_ = s <;>
        simp [h1, h2, Prod.ext_iff] <;> omega

theorem alKeys_foldl_transitions (ts : List Transition) :
    ∀ (m : List (String × ℕ × ℕ)),
    alKeys (ts.foldl (fun m t =>
      mapAdjust (mapAdjust m t.from_ (fun c => (c.1, c.2 + t.count)))
        t.to_ (fun c => (c.1 + t.count, c.2))) m) = alKeys m := by
  induction ts with
  | nil => intro m; rfl
  | cons t ts ih =>
    intro m
    rw [List.foldl_cons, ih, alKeys_mapAdjust, alKeys_mapAdjust]

theorem foldl_const (l : List α) (b : β) : l.foldl (fun b _ => b) b = b := by
  induction l with
  | nil => rfl
  | cons x t ih => rw [List.foldl_cons]; exact ih

theorem mem_of_alLookup_eq_some {m : List (κ × β)} {k : κ} {b : β}
    (h : alLookup m k = some b) : (k, b) ∈ m := by
  induction m with
  | nil => cases h
  | cons p t ih =>
    simp only [alLookup] at h ih
    by_cases hp : p.1 = k
    · rw [List.find?_cons_of_pos _ (by simpa using hp)] at h
      simp only [Option.map_some'] at h
      injection h with h
      have he : (k, b) = p := by rw [← hp, ← h]
      rw [he]
      exact List.mem_cons_self p t
    · rw [List.find?_cons_of_neg _ (by simpa using hp)] at h
      exact List.mem_cons_of_mem p (ih h)

end VariantLemmas

section ConstAcc

variable {κ α β : Type} [DecidableEq κ]

/-- Every value of an `accumulate` whose step ignores the item is the
initial value. -/
theorem accumulate_const_value {key : α → κ} {v : β} {items : List α}
    {p : κ × β} (h : p ∈ accumulate key (fun _ => v) (fun b _ => b) items) :
    p.2 = v := by
  rw [accumulate_eq] at h
  simp only [List.mem_map] at h
  obtain ⟨a0, _, he⟩ := h
  rw [← he, foldl_const]

end ConstAcc

/-- What one entry of `checkVariantConservation` holds: the state, the sums
of the matching transition counts, and, for a state that is neither the head
nor the last of the sequence, the balance verdict as the equality of the two
sums. -/
theorem mem_checkVariantConservation {v : Variant} {chk : ConservationCheck}
    (h : chk ∈ checkVariantConservation v) :
    chk.node ∈ v.sequence ∧
    chk.incoming_count
      = ((v.transitions.filter (fun t => t.to_ = chk.node)).map (fun t => t.count)).sum ∧
    chk.total_outgoing
      = ((v.transitions.filter (fun t => t.from_ = chk.node)).map (fun t => t.count)).sum ∧
    (v.sequence.head? ≠ some chk.node → v.sequence.getLast? ≠ some chk.node →
      chk.is_balanced = decide (chk.incoming_count = chk.total_outgoing)) := by
  rw [checkVariantConservation] at h
  simp only [List.mem_map] at h
  obtain ⟨p, hp, hpe⟩ := h
  have hnode : chk.node = p.1 := by rw [← hpe]
  have hkeq := alKeys_foldl_transitions v.transitions
    (accumulate (fun (s : String) => s) (fun _ => ((0, 0) : ℕ × ℕ)) (fun b _ => b)
      v.sequence)
  have hnd0 := alKeys_accumulate_nodup (fun (s : String) => s)
    (fun _ => ((0, 0) : ℕ × ℕ)) (fun b _ => b) v.sequence
  have hndk : (alKeys (v.transitions.foldl (fun m t =>
      mapAdjust (mapAdjust m t.from_ (fun c => (c.1, c.2 + t.count)))
        t.to_ (fun c => (c.1 + t.count, c.2)))
      (accumulate (fun (s : String) => s) (fun _ => ((0, 0) : ℕ × ℕ)) (fun b _ => b)
        v.sequence))).Nodup := by
    rw [hkeq]
    exact hnd0
  have hlook := alLookup_eq_some_of_mem hndk hp
  rw [alLookup_foldl_transitions] at hlook
  have hk0 : p.1 ∈ alKeys (accumulate (fun (s : String) => s)
      (fun _ => ((0, 0) : ℕ × ℕ)) (fun b _ => b) v.sequence) := by
    rw [← hkeq]
    exact List.mem_map_of_mem _ hp
  have hl0 : ¬ (alLookup (accumulate (fun (s : String) => s)
      (fun _ => ((0, 0) : ℕ × ℕ)) (fun b _ => b) v.sequence) p.1 = none) := by
    rw [alLookup_eq_none_iff]
    exact fun hc => hc hk0
  obtain ⟨b0, hb0⟩ : ∃ b0, alLookup (accumulate (fun (s : String) => s)
      (fun _ => ((0, 0) : ℕ × ℕ)) (fun b _ => b) v.sequence) p.1 = some b0 := by
    cases hc : alLookup (accumulate (fun (s : String) => s)
      (fun _ => ((0, 0) : ℕ × ℕ)) (fun b _ => b) v.sequence) p.1
    · exact absurd hc hl0
    · exact ⟨_, rfl⟩
  have hb00 : b0 = ((0, 0) : ℕ × ℕ) :=
    accumulate_const_value (mem_of_alLookup_eq_some hb0)
  rw [hb0, hb00] at hlook
  simp only [Option.map_some', Option.some.injEq, Nat.zero_add] at hlook
  have hval : p.2 = (((v.transitions.filter (fun t => t.to_ = p.1)).map
        (fun t => t.count)).sum,
      ((v.transitions.filter (fun t => t.from_ = p.1)).map (fun t => t.count)).sum) :=
    hlook.symm
  have hmemseq : p.1 ∈ v.sequence := by
    have : p.1 ∈ firstDedupBy (fun (s : String) => s) v.sequence → p.1 ∈ v.sequence :=
      mem_of_mem_firstDedupBy
    apply this
    rw [accumulate_eq] at hk0
    simp only [alKeys, List.map_map] at hk0
    simpa using hk0
  refine ⟨by rw [hnode]; exact hmemseq, ?_, ?_, ?_⟩
  · have h1 : chk.incoming_count = p.2.1 := by rw [← hpe]
    rw [h1, hnode, hval]
  · have h1 : chk.total_outgoing = p.2.2 := by rw [← hpe]
    rw [h1, hnode, hval]
  · intro hh hl
    rw [hnode] at hh hl
    have h1 : chk.incoming_count = p.2.1 := by rw [← hpe]
    have h2 : chk.total_outgoing = p.2.2 := by rw [← hpe]
    rw [h1, h2, ← hpe]
    simp [hh, hl]

/-- `mkTransition` yields `none` exactly on a pair with no occurrence. -/
theorem mkTransition_eq_none_iff (g : List ProcessCase) (p : String × String) :
    mkTransition g p = none ↔ (transitionOccs g p.1 p.2).length = 0 := by
  by_cases h0 : (transitionOccs g p.1 p.2).length = 0 <;> simp [mkTransition, h0]

/-- The endpoints and count of a transition built by `mkTransition`. -/
theorem mkTransition_fields {g : List ProcessCase} {p : String × String}
    {T : Transition} (h : mkTransition g p = some T) :
    T.from_ = p.1 ∧ T.to_ = p.2 ∧ T.count = (transitionOccs g p.1 p.2).length := by
  by_cases h0 : (transitionOccs g p.1 p.2).length = 0
  · simp [mkTransition, h0] at h
  · simp only [mkTransition, h0, if_false, Option.some.injEq] at h
    rw [← h]
    exact ⟨rfl, rfl, rfl⟩

/-- Summing the counts of a selection of transition entries built from a
pair list sums the occurrence counts of the selected pairs (dropped
zero-occurrence pairs contribute zero either way). -/
theorem sum_counts_filterMap (g : List ProcessCase) (selT : Transition → Bool)
    (selP : String × String → Bool)
    (hsel : ∀ T : Transition, selT T = selP (T.from_, T.to_)) :
    ∀ (pairs : List (String × String)),
    (((pairs.filterMap (mkTransition g)).filter selT).map (fun t => t.count)).sum
    = ((pairs.filter selP).map (fun p => (transitionOccs g p.1 p.2).length)).sum
  | [] => by simp
  | p :: pairs => by
    have ih := sum_counts_filterMap g selT selP hsel pairs
    rw [List.filterMap_cons]
    cases hmk : mkTransition g p with
    | none =>
      have h0 := (mkTransition_eq_none_iff g p).mp hmk
      rw [List.filter_cons]
      by_cases hsp : selP p = true
      · rw [if_pos hsp]
        simp only [List.map_cons, List.sum_cons]
        rw [ih, h0, Nat.zero_add]
      · rw [if_neg hsp]
        exact ih
    | some T =>
      obtain ⟨hf, ht, hc⟩ := mkTransition_fields hmk
      have hselT : selT T = selP p := by
        rw [hsel, hf, ht]
      rw [List.filter_cons, List.filter_cons]
      by_cases hsp : selP p = true
      · rw [if_pos hsp, if_pos (by rw [hselT]; exact hsp)]
        simp only [List.map_cons, List.sum_cons]
        rw [ih, hc]
      · rw [if_neg hsp, if_neg (by rw [hselT]; exact hsp)]
        exact ih

/-- The occurrence list of a pair splits into per-case adjacent-pair counts. -/
theorem transitionOccs_length (g : List ProcessCase) (f t : String) :
    (transitionOccs g f t).length
      = (g.map (fun c => (c.events.zip c.events.tail).countP
          (fun pr => pr.1.state = f ∧ pr.2.state = t))).sum := by
  rw [transitionOccs]
  induction g with
  | nil => simp
  | cons c cs ih =>
    rw [List.flatMap_cons, List.length_append, List.map_cons, List.sum_cons, ih]
    congr 1
    exact length_filterMap_if _ _ _

/-- For a case whose canonical sequence is its event-state walk, counting
adjacent event pairs by state equals counting adjacent sequence pairs. -/
theorem countP_events_pair (c : ProcessCase)
    (hwf : c.events.map (fun e => e.state) = c.sequence) (f t : String) :
    (c.events.zip c.events.tail).countP (fun pr => pr.1.state = f ∧ pr.2.state = t)
      = (adjPairs c.sequence).countP (fun q => q.1 = f ∧ q.2 = t) := by
  rw [← hwf, adjPairs_map, List.countP_map]
  rfl

/-- Same, for pairs leaving a given state. -/
theorem countP_events_fst (c : ProcessCase)
    (hwf : c.events.map (fun e => e.state) = c.sequence) (s : String) :
    (c.events.zip c.events.tail).countP (fun pr => pr.1.state = s)
      = (adjPairs c.sequence).countP (fun q => q.1 = s) := by
  rw [← hwf, adjPairs_map, List.countP_map]
  rfl

theorem countP_eq_one_of_nodup {γ : Type} [DecidableEq γ] {l : List γ}
    (hnd : l.Nodup) {a : γ} (ha : a ∈ l) :
    l.countP (fun x => x = a) = 1 := by
  induction l with
  | nil => cases ha
  | cons x t ih =>
    rw [List.countP_cons]
    rcases List.mem_cons.mp ha with h | h
    · have hx : x ∉ t := (List.nodup_cons.mp hnd).1
      have h0 : t.countP (fun y => y = a) = 0 := by
        rw [List.countP_eq_zero]
        intro y hy
        simp only [decide_eq_true_eq]
        intro e
        rw [← h, ← e] at hx
        exact hx hy
      rw [h0, ← h]
      simp
    · have hxa : ¬ (x = a) := by
        intro e
        rw [e] at hnd
        exact (List.nodup_cons.mp hnd).1 h
      rw [ih (List.nodup_cons.mp hnd).2 h]
      simp [hxa]

/-- The transition list of a built variant. -/
theorem buildVariant_transitions {vid : String} {g : List ProcessCase}
    {v : Variant} (hv : buildVariant vid g = some v)
    (hseq : ∀ c ∈ g, c.sequence = v.sequence) :
    v.transitions = (adjPairs v.sequence).filterMap (mkTransition g) := by
  cases g with
  | nil => cases hv
  | cons c0 gt =>
    have hs0 : c0.sequence = v.sequence := hseq c0 (List.mem_cons_self c0 gt)
    rw [buildVariant] at hv
    simp only [Option.some.injEq] at hv
    rw [← hv]

/-- The variant-side core of the conservation property: a state that is
neither the head nor the last of a loop-free canonical sequence is balanced,
for a variant built from a group of cases that all share that sequence as
their event-state walk. -/
theorem variant_intermediate_check_balanced (g : List ProcessCase) (vid : String)
    (v : Variant) (hv : buildVariant vid g = some v)
    (hseq : ∀ c ∈ g, c.sequence = v.sequence)
    (hwf : ∀ c ∈ g, c.events.map (fun e => e.state) = c.sequence)
    (hnd : (adjPairs v.sequence).Nodup) :
    ∀ chk ∈ checkVariantConservation v,
      v.sequence.head? ≠ some chk.node →
      v.sequence.getLast? ≠ some chk.node →
      chk.is_balanced = true := by
  intro chk hchk hh hl
  obtain ⟨hmem, hin, hout, hbal⟩ := mem_checkVariantConservation hchk
  rw [hbal hh hl]
  simp only [decide_eq_true_eq]
  have htr := buildVariant_transitions hv hseq
  rw [hin, hout, htr]
  rw [sum_counts_filterMap g _ (fun q => q.2 = chk.node) (fun T => rfl),
    sum_counts_filterMap g _ (fun q => q.1 = chk.node) (fun T => rfl)]
  have hocc : ∀ (p : String × String), p ∈ adjPairs v.sequence →
      (transitionOccs g p.1 p.2).length = g.length := by
    intro p hpmem
    rw [transitionOccs_length]
    have hone : ∀ c ∈ g, (c.events.zip c.events.tail).countP
        (fun pr => pr.1.state = p.1 ∧ pr.2.state = p.2) = 1 := by
      intro c hc
      rw [countP_events_pair c (hwf c hc) p.1 p.2, hseq c hc]
      rw [List.countP_congr (fun q _ => ?_), countP_eq_one_of_nodup hnd hpmem]
      simp [Prod.ext_iff]
    rw [List.map_congr_left hone, sum_map_const_nat, Nat.mul_one]
  have e2 : ∀ p ∈ (adjPairs v.sequence).filter (fun q => q.2 = chk.node),
      (transitionOccs g p.1 p.2).length = g.length := fun p hp =>
    hocc p (List.mem_of_mem_filter hp)
  have e1 : ∀ p ∈ (adjPairs v.sequence).filter (fun q => q.1 = chk.node),
      (transitionOccs g p.1 p.2).length = g.length := fun p hp =>
    hocc p (List.mem_of_mem_filter hp)
  rw [List.map_congr_left e2, List.map_congr_left e1,
    sum_map_const_nat, sum_map_const_nat]
  congr 1
  rw [← List.countP_eq_length_filter, ← List.countP_eq_length_filter]
  have hz2 := countP_zip_tail_snd v.sequence chk.node
  have hz1 := countP_zip_tail_fst v.sequence chk.node
  rw [show adjPairs v.sequence = v.sequence.zip v.sequence.tail from rfl, hz2, hz1]
  exact countP_tail_eq_dropLast v.sequence chk.node hh hl

/-- The JS push-into-array fold. -/
theorem foldl_push {γ : Type} : ∀ (l : List γ) (init : List γ),
    l.foldl (fun g c => g ++ [c]) init = init ++ l
  | [], init => by simp
  | c :: t, init => by
    rw [List.foldl_cons, foldl_push t (init ++ [c])]
    simp

theorem snd_mem_of_mem_enum {γ : Type} {p : ℕ × γ} {l : List γ}
    (h : p ∈ l.enum) : p.2 ∈ l := by
  rw [List.enum_eq_zip_range] at h
  exact (List.of_mem_zip h).2

/-- Every extracted variant is built from the group of the input cases that
share its head case's joined sequence key, with that head case first. -/
theorem exists_group_of_mem_extractVariants {cases : List ProcessCase} {v : Variant}
    (hv : v ∈ extractVariants cases) :
    ∃ c0 : ProcessCase, c0 ∈ cases ∧
      (cases.filter (fun x => joinKey x.sequence = joinKey c0.sequence)).head?
        = some c0 ∧
      buildVariant v.variant_id
        (cases.filter (fun x => joinKey x.sequence = joinKey c0.sequence)) = some v := by
  rw [extractVariants] at hv
  have hv2 := mem_jsSort.mp hv
  rw [List.mem_filterMap] at hv2
  obtain ⟨ig, hig, hbuild⟩ := hv2
  have hgm : (ig.2.1, ig.2.2) ∈ variantGroups cases := snd_mem_of_mem_enum hig
  rw [variantGroups] at hgm
  obtain ⟨c0, hc0d, _, hval⟩ := mem_accumulate_iff.mp hgm
  rw [foldl_push, List.nil_append] at hval
  have hc0 : c0 ∈ cases := mem_of_mem_firstDedupBy hc0d
  have hhead := head_filter_firstDedupBy (fun c => joinKey c.sequence) cases c0 hc0d
  refine ⟨c0, hc0, hhead, ?_⟩
  have hbuild2 : buildVariant
      (match ig.2.2 with
       | [] => "unknown_" ++ toString (ig.1 + 1)
       | c1 :: _ => (knownVariantId c1.sequence).getD ("unknown_" ++ toString (ig.1 + 1)))
      ig.2.2 = some v := hbuild
  cases hG : cases.filter (fun x => joinKey x.sequence = joinKey c0.sequence) with
  | nil =>
    rw [hG] at hhead
    cases hhead
  | cons x t =>
    rw [hG] at hhead
    have hx : x = c0 := by
      simpa using hhead
    subst hx
    rw [hG] at hval
    rw [hval] at hbuild2
    have hb3 : buildVariant
        ((knownVariantId x.sequence).getD ("unknown_" ++ toString (ig.1 + 1)))
        (x :: t) = some v := hbuild2
    have hvid : v.variant_id
        = (knownVariantId x.sequence).getD ("unknown_" ++ toString (ig.1 + 1)) := by
      rw [buildVariant] at hb3
      simp only [Option.some.injEq] at hb3
      rw [← hb3]
    rw [hvid]
    exact hbuild2

/-! ## Claim C1 -/

/-- A single case whose walk repeats the adjacent pair A→B. -/
def c1Case : ProcessCase :=
  { case_id := "c1",
    events := [{ case_id := "c1", state := "A", timestamp := 0, performer := none },
               { case_id := "c1", state := "B", timestamp := 0, performer := none },
               { case_id := "c1", state := "A", timestamp := 0, performer := none },
               { case_id := "c1", state := "B", timestamp := 0, performer := none },
               { case_id := "c1", state := "C", timestamp := 0, performer := none }],
    sequence := ["A", "B", "A", "B", "C"],
    start_time := 0, end_time := 0, total_duration_hours := 0 }

/-- C1, counterexample: for the single case with walk A,B,A,B,C, the variant
conservation check reports the intermediate state B (neither the head nor the
last of the canonical sequence) as unbalanced: each of the two A→B transition
entries counts all occurrences, so B gets incoming 4 against outgoing 2.  The
claim that every such intermediate state is reported balanced is false. -/
theorem c1_counterexample :
    ∃ v ∈ extractVariants [c1Case], ∃ chk ∈ checkVariantConservation v,
      v.sequence.head? ≠ some chk.node ∧ v.sequence.getLast? ≠ some chk.node ∧
      chk.is_balanced = false := by
  decide

/-- C1 (amended): the conservation property holds for every intermediate
state with the qualifications the code needs: for the DFG side, the string
edge keys of the occurrences must not collide; for the variant side, the
cases' canonical sequences must be their event-state walks, joined sequence
keys must not collide, and the variant's canonical sequence must not repeat
an adjacent pair (a loop such as A,B,A,B,C breaks the property, as the
counterexample shows). -/
theorem c1_amended (cases : List ProcessCase)
    (hinj : EdgeKeyInj cases)
    (hwf : ∀ c ∈ cases, c.events.map (fun e => e.state) = c.sequence)
    (hjoin : ∀ c1 ∈ cases, ∀ c2 ∈ cases,
      joinKey c1.sequence = joinKey c2.sequence → c1.sequence = c2.sequence) :
    (∀ chk ∈ checkDFGConservation (buildDirectlyFollowsGraph cases),
       chk.node ∉ (buildDirectlyFollowsGraph cases).startActivities →
       chk.node ∉ (buildDirectlyFollowsGraph cases).endActivities →
       chk.is_balanced = true) ∧
    (∀ v ∈ extractVariants cases, (adjPairs v.sequence).Nodup →
      ∀ chk ∈ checkVariantConservation v,
        v.sequence.head? ≠ some chk.node →
        v.sequence.getLast? ≠ some chk.node →
        chk.is_balanced = true) := by
  refine ⟨dfg_intermediate_check_balanced cases hinj, ?_⟩
  intro v hv hnd chk hchk hh hl
  obtain ⟨c0, hc0, hhead, hbv⟩ := exists_group_of_mem_extractVariants hv
  have hc0seq : c0.sequence = v.sequence := by
    cases hG : cases.filter (fun x => joinKey x.sequence = joinKey c0.sequence) with
    | nil =>
      rw [hG] at hhead
      cases hhead
    | cons x t =>
      rw [hG] at hhead hbv
      have hx : x = c0 := by simpa using hhead
      subst hx
      rw [buildVariant] at hbv
      simp only [Option.some.injEq] at hbv
      rw [← hbv]
  have hseq : ∀ c ∈ cases.filter
      (fun x => joinKey x.sequence = joinKey c0.sequence), c.sequence = v.sequence := by
    intro c hc
    have h1 : joinKey c.sequence = joinKey c0.sequence := by
      simpa using List.of_mem_filter hc
    have h2 : c.sequence = c0.sequence :=
      hjoin c (List.mem_of_mem_filter hc) c0 hc0 h1
    rw [h2, hc0seq]
  have hwfg : ∀ c ∈ cases.filter
      (fun x => joinKey x.sequence = joinKey c0.sequence),
      c.events.map (fun e => e.state) = c.sequence :=
    fun c hc => hwf c (List.mem_of_mem_filter hc)
  exact variant_intermediate_check_balanced _ _ v hbv hseq hwfg hnd chk hchk hh hl

/-- A single well-formed case with walk A,B,C: B is intermediate. -/
def c1wCase : ProcessCase :=
  { case_id := "w1",
    events := [{ case_id := "w1", state := "A", timestamp := 0, performer := none },
               { case_id := "w1", state := "B", timestamp := 0, performer := none },
               { case_id := "w1", state := "C", timestamp := 0, performer := none }],
    sequence := ["A", "B", "C"],
    start_time := 0, end_time := 0, total_duration_hours := 0 }

/-- C1 witness: the amended theorem applied to the concrete one-case log
A,B,C, every hypothesis discharged by computation. -/
theorem c1_amended_witness :
    (EdgeKeyInj [c1wCase] ∧
     (∀ c ∈ [c1wCase], c.events.map (fun e => e.state) = c.sequence) ∧
     (∀ c1 ∈ [c1wCase], ∀ c2 ∈ [c1wCase],
        joinKey c1.sequence = joinKey c2.sequence → c1.sequence = c2.sequence)) ∧
    ((∀ chk ∈ checkDFGConservation (buildDirectlyFollowsGraph [c1wCase]),
       chk.node ∉ (buildDirectlyFollowsGraph [c1wCase]).startActivities →
       chk.node ∉ (buildDirectlyFollowsGraph [c1wCase]).endActivities →
       chk.is_balanced = true) ∧
     (∀ v ∈ extractVariants [c1wCase], (adjPairs v.sequence).Nodup →
      ∀ chk ∈ checkVariantConservation v,
        v.sequence.head? ≠ some chk.node →
        v.sequence.getLast? ≠ some chk.node →
        chk.is_balanced = true)) :=
  ⟨⟨by unfold EdgeKeyInj; decide, by decide, by decide⟩,
   c1_amended [c1wCase] (by unfold EdgeKeyInj; decide) (by decide) (by decide)⟩

/-! ## Claim C3 -/

/-- A case whose walk A,B,A starts and ends in the same state. -/
def c3Case : ProcessCase :=
  { case_id := "c3",
    events := [{ case_id := "c3", state := "A", timestamp := 0, performer := none },
               { case_id := "c3", state := "B", timestamp := 0, performer := none },
               { case_id := "c3", state := "A", timestamp := 0, performer := none }],
    sequence := ["A", "B", "A"],
    start_time := 0, end_time := 0, total_duration_hours := 0 }

/-- C3, counterexample: in the variant extracted from the walk A,B,A, the
state A is both the head and the last of the canonical sequence, yet the
variant checker reports it as failing (it demands zero incoming and outgoing
counts instead of exempting it), so the claim that both checkers classify
such a state as exempt and passing regardless of its counts is false. -/
theorem c3_counterexample :
    ∃ v ∈ extractVariants [c3Case], ∃ chk ∈ checkVariantConservation v,
      v.sequence.head? = some chk.node ∧ v.sequence.getLast? = some chk.node ∧
      chk.is_balanced = false := by
  decide

/-- C3 (amended): a state that is simultaneously a start and an end state is
exempted unconditionally (passing, with no error message) by the DFG checker
only; the variant checker instead passes such a state exactly when both its
incoming and outgoing totals are zero. -/
theorem c3_amended (dfg : DirectlyFollowsGraph) (v : Variant)
    (chkD chkV : ConservationCheck)
    (hD : chkD ∈ checkDFGConservation dfg)
    (hDs : chkD.node ∈ dfg.startActivities)
    (hDe : chkD.node ∈ dfg.endActivities)
    (hV : chkV ∈ checkVariantConservation v)
    (hVs : v.sequence.head? = some chkV.node)
    (hVe : v.sequence.getLast? = some chkV.node) :
    (chkD.is_balanced = true ∧ chkD.error_message = none) ∧
    chkV.is_balanced = decide (chkV.incoming_count = 0 ∧ chkV.total_outgoing = 0) := by
  constructor
  · rw [checkDFGConservation] at hD
    simp only [List.mem_map] at hD
    obtain ⟨p, hp, hpe⟩ := hD
    have hnode : chkD.node = p.1 := by rw [← hpe]
    rw [hnode] at hDs hDe
    rw [← hpe]
    simp [hDs, hDe]
  · rw [checkVariantConservation] at hV
    simp only [List.mem_map] at hV
    obtain ⟨p, hp, hpe⟩ := hV
    have hnode : chkV.node = p.1 := by rw [← hpe]
    rw [hnode] at hVs hVe
    rw [← hpe]
    simp [hVs, hVe]

/-- A single-event case: its only state is both a start and an end activity
of the DFG. -/
def c3aCase : ProcessCase :=
  { case_id := "a1",
    events := [{ case_id := "a1", state := "A", timestamp := 0, performer := none }],
    sequence := ["A"],
    start_time := 0, end_time := 0, total_duration_hours := 0 }

/-- The DFG of the single-activity log. -/
def c3dfg : DirectlyFollowsGraph := buildDirectlyFollowsGraph [c3aCase]

/-- The variant of the A,B,A log. -/
def c3v : Variant := (extractVariants [c3Case]).headD ⟨"", [], 0, [], [], [], 0, 0, 0⟩

/-- The DFG check of the single activity A. -/
def c3chkD : ConservationCheck :=
  (checkDFGConservation c3dfg).headD ⟨"", "", 0, [], 0, true, none⟩

/-- The variant check of the state A of the A,B,A variant. -/
def c3chkV : ConservationCheck :=
  (checkVariantConservation c3v).headD ⟨"", "", 0, [], 0, true, none⟩

/-- C3 witness: the amended theorem applied to the single-activity DFG and
the A,B,A variant, every hypothesis discharged by computation. -/
theorem c3_amended_witness :
    (c3chkD ∈ checkDFGConservation c3dfg ∧
     c3chkD.node ∈ c3dfg.startActivities ∧
     c3chkD.node ∈ c3dfg.endActivities ∧
     c3chkV ∈ checkVariantConservation c3v ∧
     c3v.sequence.head? = some c3chkV.node ∧
     c3v.sequence.getLast? = some c3chkV.node) ∧
    ((c3chkD.is_balanced = true ∧ c3chkD.error_message = none) ∧
     c3chkV.is_balanced = decide (c3chkV.incoming_count = 0 ∧ c3chkV.total_outgoing = 0)) :=
  ⟨⟨by decide, by decide, by decide, by decide, by decide, by decide⟩,
   c3_amended c3dfg c3v c3chkD c3chkV (by decide) (by decide) (by decide)
     (by decide) (by decide) (by decide)⟩

/-! ## Claim C5 -/

/-- A case with the looping walk A,B,A,B,C of the spec's example. -/
def mkLoopCase (cid : String) : ProcessCase :=
  { case_id := cid,
    events := [{ case_id := cid, state := "A", timestamp := 0, performer := none },
               { case_id := cid, state := "B", timestamp := 0, performer := none },
               { case_id := cid, state := "A", timestamp := 0, performer := none },
               { case_id := cid, state := "B", timestamp := 0, performer := none },
               { case_id := cid, state := "C", timestamp := 0, performer := none }],
    sequence := ["A", "B", "A", "B", "C"],
    start_time := 0, end_time := 0, total_duration_hours := 0 }

/-- Three cases running the sequence A,B,A,B,C. -/
def c5Cases : List ProcessCase := [mkLoopCase "p1", mkLoopCase "p2", mkLoopCase "p3"]

/-- C5 (confirmed): every transition of an extracted variant corresponds to an
adjacent pair of the canonical sequence, and its `count` is the total number
of occurrences of that adjacent pair across the raw event streams of the
variant's group of cases; in particular the three-case A,B,A,B,C log yields
count 6 for A→B and count 3 for B→A (and for B→C). -/
theorem c5_confirmed :
    (∀ (cases : List ProcessCase), ∀ v ∈ extractVariants cases,
      ∃ g : List ProcessCase, (∀ c ∈ g, c ∈ cases) ∧
        v.cases = g.map (fun c => c.case_id) ∧ v.case_count = g.length ∧
        ∀ t ∈ v.transitions, (t.from_, t.to_) ∈ adjPairs v.sequence ∧
          t.count = (g.map (fun c => (c.events.zip c.events.tail).countP
            (fun pr => pr.1.state = t.from_ ∧ pr.2.state = t.to_))).sum) ∧
    (extractVariants c5Cases).map (fun v => v.transitions.map
        (fun t => (t.from_, t.to_, t.count)))
      = [[("A", "B", 6), ("B", "A", 3), ("A", "B", 6), ("B", "C", 3)]] := by
  constructor
  · intro cases v hv
    obtain ⟨c0, hc0, hhead, hbv⟩ := exists_group_of_mem_extractVariants hv
    refine ⟨cases.filter (fun x => joinKey x.sequence = joinKey c0.sequence),
      fun c hc => List.mem_of_mem_filter hc, ?_⟩
    cases hG : cases.filter (fun x => joinKey x.sequence = joinKey c0.sequence) with
    | nil =>
      rw [hG] at hhead
      cases hhead
    | cons x t =>
      rw [hG] at hbv
      rw [buildVariant] at hbv
      simp only [Option.some.injEq] at hbv
      have hcs : v.cases = (x :: t).map (fun c => c.case_id) := by rw [← hbv]
      have hcc : v.case_count = (x :: t).length := by rw [← hbv]
      have hsq : v.sequence = x.sequence := by rw [← hbv]
      have htr : v.transitions = (adjPairs x.sequence).filterMap
          (mkTransition (x :: t)) := by rw [← hbv]
      refine ⟨hcs, hcc, ?_⟩
      intro tr htm
      rw [htr, List.mem_filterMap] at htm
      obtain ⟨p, hpm, hpk⟩ := htm
      obtain ⟨hf, ht2, hcnt⟩ := mkTransition_fields hpk
      constructor
      · rw [hsq, hf, ht2]
        have : (p.1, p.2) = p := rfl
        rw [this]
        exact hpm
      · rw [hcnt, hf, ht2, transitionOccs_length]
  · decide

/-! ## Claim C2 -/

section DedupFilterMap

variable {κ α β : Type} [DecidableEq κ]

/-- Deduplication commutes with a key-respecting `filterMap` whose result is
constant on key classes. -/
theorem firstDedupByAux_filterMap (f : α → Option β) (kf : β → κ) (key : α → κ)
    (hk : ∀ a b, f a = some b → kf b = key a)
    (hcon : ∀ a a2, key a = key a2 → f a = f a2) :
    ∀ (l : List α) (s1 s2 : List κ),
      (∀ k ∈ s1, k ∈ s2) →
      (∀ a, key a ∈ s2 → (f a).isSome = true → key a ∈ s1) →
      firstDedupByAux kf s1 (l.filterMap f) = (firstDedupByAux key s2 l).filterMap f := by
  intro l
  induction l with
  | nil =>
    intro s1 s2 _ _
    rfl
  | cons a t ih =>
    intro s1 s2 hsub hback
    rw [List.filterMap_cons]
    cases hfa : f a with
    | none =>
      simp only [firstDedupByAux]
      by_cases hs2 : key a ∈ s2
      · rw [if_pos hs2]
        exact ih s1 s2 hsub hback
      · rw [if_neg hs2, List.filterMap_cons, hfa]
        apply ih s1 (key a :: s2)
        · intro k hk1
          exact List.mem_cons_of_mem _ (hsub k hk1)
        · intro a2 ha2 hsome
          rcases List.mem_cons.mp ha2 with h | h
          · rw [hcon a2 a h, hfa] at hsome
            cases hsome
          · exact hback a2 h hsome
    | some b =>
      have hkb : kf b = key a := hk a b hfa
      simp only [firstDedupByAux]
      by_cases hs2 : key a ∈ s2
      · have hs1 : key a ∈ s1 := hback a hs2 (by rw [hfa]; rfl)
        rw [if_pos (by rw [hkb]; exact hs1), if_pos hs2]
        exact ih s1 s2 hsub hback
      · have hns1 : kf b ∉ s1 := by
          rw [hkb]
          exact fun hc => hs2 (hsub _ hc)
        rw [if_neg hns1, if_neg hs2, List.filterMap_cons, hfa]
        congr 1
        rw [hkb]
        apply ih (key a :: s1) (key a :: s2)
        · intro k hk1
          rcases List.mem_cons.mp hk1 with h | h
          · rw [h]
            exact List.mem_cons_self _ _
          · exact List.mem_cons_of_mem _ (hsub k h)
        · intro a2 ha2 hsome
          rcases List.mem_cons.mp ha2 with h | h
          · rw [h]
            exact List.mem_cons_self _ _
          · exact List.mem_cons_of_mem _ (hback a2 h hsome)

theorem firstDedupBy_filterMap (f : α → Option β) (kf : β → κ) (key : α → κ)
    (hk : ∀ a b, f a = some b → kf b = key a)
    (hcon : ∀ a a2, key a = key a2 → f a = f a2) (l : List α) :
    firstDedupBy kf (l.filterMap f) = (firstDedupBy key l).filterMap f :=
  firstDedupByAux_filterMap f kf key hk hcon l [] [] (by simp) (by simp)

end DedupFilterMap

theorem sum_map_add {δ : Type} (m : List δ) (f g : δ → ℕ) :
    (m.map (fun y => f y + g y)).sum = (m.map f).sum + (m.map g).sum := by
  induction m with
  | nil => rfl
  | cons y t ih =>
    simp only [List.map_cons, List.sum_cons, ih]
    omega

theorem sum_exchange {γ δ : Type} (l : List γ) (m : List δ) (A : γ → δ → ℕ) :
    (l.map (fun x => (m.map (A x)).sum)).sum
      = (m.map (fun y => (l.map (fun x => A x y)).sum)).sum := by
  induction l with
  | nil =>
    simp only [List.map_nil, List.sum_nil]
    rw [sum_map_const_nat, Nat.mul_zero]
  | cons x t ih =>
    simp only [List.map_cons, List.sum_cons, ih]
    rw [← sum_map_add]

/-- Three cases running the looping sequence A,B,A,B,C. -/
def c2Cases : List ProcessCase := [mkLoopCase "q1", mkLoopCase "q2", mkLoopCase "q3"]

/-- C2, counterexample: in the variant of the three-case A,B,A,B,C log, the
pair A→B appears twice in the canonical sequence, so the transition list has
two entries for it, each already counting all 6 raw occurrences; summing
`count` over all entries leaving A gives 12, while the raw streams leave A
only 6 times. -/
theorem c2_counterexample :
    ∃ v ∈ extractVariants c2Cases,
      "A" ∈ v.sequence ∧
      ((v.transitions.filter (fun t => t.from_ = "A")).map (fun t => t.count)).sum
        ≠ (c2Cases.map (fun c => (c.events.zip c.events.tail).countP
            (fun pr => pr.1.state = "A"))).sum ∧
      ((v.transitions.filter (fun t => t.from_ = "A")).map (fun t => t.count)).sum = 12 ∧
      (c2Cases.map (fun c => (c.events.zip c.events.tail).countP
          (fun pr => pr.1.state = "A"))).sum = 6 := by
  decide

/-- C2 (amended): summing `count` over the transition entries leaving a state
counts each distinct from→to pair once (first entry per pair); that sum
equals the number of adjacent event pairs leaving the state across the raw
event streams of the variant's cases.  (Well-formed input: canonical
sequences are the event-state walks and joined keys do not collide.) -/
theorem c2_amended (cases : List ProcessCase)
    (hwf : ∀ c ∈ cases, c.events.map (fun e => e.state) = c.sequence)
    (hjoin : ∀ c1 ∈ cases, ∀ c2 ∈ cases,
      joinKey c1.sequence = joinKey c2.sequence → c1.sequence = c2.sequence) :
    ∀ v ∈ extractVariants cases, ∃ g : List ProcessCase,
      (∀ c ∈ g, c ∈ cases) ∧ v.cases = g.map (fun c => c.case_id) ∧
      ∀ s : String,
        (((firstDedupBy (fun t => (t.from_, t.to_)) v.transitions).filter
            (fun t => t.from_ = s)).map (fun t => t.count)).sum
        = (g.map (fun c => (c.events.zip c.events.tail).countP
            (fun pr => pr.1.state = s))).sum := by
  intro v hv
  obtain ⟨c0, hc0, hhead, hbv⟩ := exists_group_of_mem_extractVariants hv
  have hc0seq : c0.sequence = v.sequence := by
    cases hG : cases.filter (fun x => joinKey x.sequence = joinKey c0.sequence) with
    | nil =>
      rw [hG] at hhead
      cases hhead
    | cons x t =>
      rw [hG] at hhead hbv
      have hx : x = c0 := by simpa using hhead
      subst hx
      rw [buildVariant] at hbv
      simp only [Option.some.injEq] at hbv
      rw [← hbv]
  have hseq : ∀ c ∈ cases.filter
      (fun x => joinKey x.sequence = joinKey c0.sequence), c.sequence = v.sequence := by
    intro c hc
    have h1 : joinKey c.sequence = joinKey c0.sequence := by
      simpa using List.of_mem_filter hc
    rw [hjoin c (List.mem_of_mem_filter hc) c0 hc0 h1, hc0seq]
  obtain ⟨hcs, htr⟩ : v.cases = (cases.filter
        (fun x => joinKey x.sequence = joinKey c0.sequence)).map (fun c => c.case_id) ∧
      v.transitions = (adjPairs v.sequence).filterMap (mkTransition
        (cases.filter (fun x => joinKey x.sequence = joinKey c0.sequence))) := by
    refine ⟨?_, buildVariant_transitions hbv hseq⟩
    cases hG : cases.filter (fun x => joinKey x.sequence = joinKey c0.sequence) with
    | nil =>
      rw [hG] at hhead
      cases hhead
    | cons x t =>
      rw [hG] at hbv
      rw [buildVariant] at hbv
      simp only [Option.some.injEq] at hbv
      rw [← hbv]
  refine ⟨cases.filter (fun x => joinKey x.sequence = joinKey c0.sequence),
    fun c hc => List.mem_of_mem_filter hc, hcs, ?_⟩
  intro s
  rw [htr]
  rw [firstDedupBy_filterMap
    (mkTransition (cases.filter (fun x => joinKey x.sequence = joinKey c0.sequence)))
    (fun t => (t.from_, t.to_)) (fun p => p)
    (fun p T h => by
      obtain ⟨hf, ht, _⟩ := mkTransition_fields h
      show (T.from_, T.to_) = p
      rw [hf, ht])
    (fun p p2 h => by rw [show p = p2 from h])]
  rw [sum_counts_filterMap _ _ (fun q => q.1 = s) (fun T => rfl)]
  rw [List.map_congr_left (fun (p : String × String) _ => transitionOccs_length
    (cases.filter (fun x => joinKey x.sequence = joinKey c0.sequence)) p.1 p.2)]
  rw [sum_exchange]
  apply congrArg List.sum
  apply List.map_congr_left
  intro c hc
  have hcseq : c.sequence = v.sequence := hseq c hc
  have h1 : ∀ p ∈ (firstDedupBy (fun (q : String × String) => q)
      (adjPairs v.sequence)).filter (fun q => q.1 = s),
      (c.events.zip c.events.tail).countP
        (fun pr => pr.1.state = p.1 ∧ pr.2.state = p.2)
      = (adjPairs v.sequence).countP (fun q => q = p) := by
    intro p _
    rw [countP_events_pair c (hwf c (List.mem_of_mem_filter hc)) p.1 p.2, hcseq]
    exact List.countP_congr (fun q _ => by simp [Prod.ext_iff])
  rw [List.map_congr_left h1]
  rw [countP_events_fst c (hwf c (List.mem_of_mem_filter hc)) s, hcseq]
  exact sum_over_firstDedupBy (fun (q : String × String) => q) (fun q => q.1 = s)
    (adjPairs v.sequence) (fun x _ y _ e => by rw [show x = y from e])

/-- C2 witness: the amended theorem applied to the three-case looping log,
its hypotheses discharged by computation. -/
theorem c2_amended_witness :
    ((∀ c ∈ c2Cases, c.events.map (fun e => e.state) = c.sequence) ∧
     (∀ c1 ∈ c2Cases, ∀ c2 ∈ c2Cases,
        joinKey c1.sequence = joinKey c2.sequence → c1.sequence = c2.sequence)) ∧
    (∀ v ∈ extractVariants c2Cases, ∃ g : List ProcessCase,
      (∀ c ∈ g, c ∈ c2Cases) ∧ v.cases = g.map (fun c => c.case_id) ∧
      ∀ s : String,
        (((firstDedupBy (fun t => (t.from_, t.to_)) v.transitions).filter
            (fun t => t.from_ = s)).map (fun t => t.count)).sum
        = (g.map (fun c => (c.events.zip c.events.tail).countP
            (fun pr => pr.1.state = s))).sum) :=
  ⟨⟨by decide, by decide⟩, c2_amended c2Cases (by decide) (by decide)⟩

/-! ## Claim C6 -/

/-- C6, counterexample: on an empty case list, `calculateProcessMetrics`
reads `cases[0].case_id` of `undefined` and throws, rather than returning a
zero/neutral value, so the claim that every aggregate computation of the
core never throws on empty input is false. -/
theorem c6_counterexample :
    calculateProcessMetrics [] [] (buildDirectlyFollowsGraph [])
      = Except.error "TypeError: cannot read case_id of undefined (empty cases)" := rfl

/-- C6 (amended): the other aggregate computations do return defined neutral
values on empty input without throwing — `identifyBottlenecks` the empty
list, both `aggregateVariants` versions `null`, and `getDFGStatistics` a
zero record (its average path length is the `NaN` of `0 / 0`, modelled
`none`) — but `calculateProcessMetrics` throws, as the counterexample
records. -/
theorem c6_amended :
    identifyBottlenecks [] = [] ∧
    (∀ o : Option TotalFlowData, aggregateVariants [] o = none) ∧
    aggregateVariantsVA [] = none ∧
    getDFGStatistics (buildDirectlyFollowsGraph [])
      = { totalActivities := 0, totalTransitions := 0, totalTransitionInstances := 0,
          averagePathLength := none, mostFrequentEdge := none,
          mostFrequentActivity := none, startActivities := [], endActivities := [] } :=
  ⟨rfl, fun _ => rfl, rfl, rfl⟩

/-! ## Claim C10 -/

/-- C10 (confirmed): both `aggregateVariants` implementations return `null`
on an empty selection, with or without total-flow data, rather than throwing
or aggregating zeros. -/
theorem c10_confirmed :
    (∀ o : Option TotalFlowData, aggregateVariants [] o = none) ∧
    (∀ tfd : TotalFlowData, aggregateVariants [] (some tfd) = none) ∧
    aggregateVariants [] none = none ∧
    aggregateVariantsVA [] = none :=
  ⟨fun _ => rfl, fun _ => rfl, rfl, rfl⟩

/-! ## Claim C7 -/

theorem foldl_fbStep_count : ∀ (l : List (Variant × Transition)) (b : AggTransData),
    (l.foldl fbStep b).count = b.count + (l.map (fun it => it.2.count)).sum
  | [], b => by simp
  | it :: t, b => by
    rw [List.foldl_cons, foldl_fbStep_count t _, List.map_cons, List.sum_cons]
    simp only [fbStep]
    omega

theorem foldl_fbStep_times : ∀ (l : List (Variant × Transition)) (b : AggTransData),
    (l.foldl fbStep b).times = b.times ++ l.flatMap
      (fun it => List.replicate it.2.count it.2.median_time_hours)
  | [], b => by simp
  | it :: t, b => by
    rw [List.foldl_cons, foldl_fbStep_times t _, List.flatMap_cons]
    simp only [fbStep]
    rw [List.append_assoc]

/-- C7 (confirmed): without total-flow data, every aggregated transition's
count is the sum of the selected variants' counts for its from→to key, and
its median/mean/p95 are computed from the pool that replicates each selected
transition's median `count` times. -/
theorem c7_confirmed (variants : List Variant) :
    ∀ t ∈ (aggregateVariants variants none).elim []
        (fun a => a.transitions),
      ∃ k : String,
        t.from_ = (splitKey k).1 ∧ t.to_ = (splitKey k).2 ∧
        (∃ it ∈ fbItems variants, mkKey it.2.from_ it.2.to_ = k) ∧
        t.count = (((fbItems variants).filter
            (fun it => mkKey it.2.from_ it.2.to_ = k)).map (fun it => it.2.count)).sum ∧
        t.median_time_hours = jsMedian (((fbItems variants).filter
            (fun it => mkKey it.2.from_ it.2.to_ = k)).flatMap
            (fun it => List.replicate it.2.count it.2.median_time_hours)) ∧
        t.mean_time_hours = jsMean (((fbItems variants).filter
            (fun it => mkKey it.2.from_ it.2.to_ = k)).flatMap
            (fun it => List.replicate it.2.count it.2.median_time_hours)) ∧
        t.percentile_95_hours = jsP95 (((fbItems variants).filter
            (fun it => mkKey it.2.from_ it.2.to_ = k)).flatMap
            (fun it => List.replicate it.2.count it.2.median_time_hours)) := by
  intro t ht
  cases variants with
  | nil => cases ht
  | cons v0 vs =>
    have ht2 : t ∈ (transitionMapFallback (v0 :: vs)).map
        (fun p => aggFinalize p.1 p.2) := ht
    rw [List.mem_map] at ht2
    obtain ⟨p, hp, hpe⟩ := ht2
    have hp2 : (p.1, p.2) ∈ transitionMapFallback (v0 :: vs) := hp
    rw [transitionMapFallback] at hp2
    obtain ⟨it0, hit0, hk, hval⟩ := mem_accumulate_iff.mp hp2
    refine ⟨p.1, by rw [← hpe]; rfl, by rw [← hpe]; rfl, ?_, ?_, ?_, ?_, ?_⟩
    · exact ⟨it0, mem_of_mem_firstDedupBy hit0, hk.symm⟩
    · have h1 : t.count = p.2.count := by rw [← hpe]; rfl
      rw [h1, hval, foldl_fbStep_count]
      simp only [Nat.zero_add]
      rw [hk]
    · have h1 : t.median_time_hours = jsMedian p.2.times := by rw [← hpe]; rfl
      rw [h1, hval, foldl_fbStep_times]
      simp only [List.nil_append]
      rw [hk]
    · have h1 : t.mean_time_hours = jsMean p.2.times := by rw [← hpe]; rfl
      rw [h1, hval, foldl_fbStep_times]
      simp only [List.nil_append]
      rw [hk]
    · have h1 : t.percentile_95_hours = jsP95 p.2.times := by rw [← hpe]; rfl
      rw [h1, hval, foldl_fbStep_times]
      simp only [List.nil_append]
      rw [hk]

/-- A one-variant selection for the fallback branch. -/
def c7v : Variant :=
  { variant_id := "v1", sequence := ["A", "B"], case_count := 3,
    cases := ["x", "y", "z"],
    transitions := [{ from_ := "A", to_ := "B", count := 2, median_time_hours := 5,
                      mean_time_hours := 5, percentile_95_hours := 5,
                      performer_breakdown := [] }],
    state_occupancy := [], total_median_hours := 1, total_mean_hours := 1,
    total_percentile_95_hours := 1 }

/-- The aggregated transition of that selection. -/
def c7t : AggTransition :=
  ((aggregateVariants [c7v] none).elim [] (fun a => a.transitions)).headD
    ⟨"", "", 0, 0, 0, 0, [], []⟩

/-- C7 witness: the theorem applied to the concrete one-variant selection and
its aggregated transition. -/
theorem c7_confirmed_witness :
    c7t ∈ (aggregateVariants [c7v] none).elim [] (fun a => a.transitions) ∧
    (∃ k : String,
        c7t.from_ = (splitKey k).1 ∧ c7t.to_ = (splitKey k).2 ∧
        (∃ it ∈ fbItems [c7v], mkKey it.2.from_ it.2.to_ = k) ∧
        c7t.count = (((fbItems [c7v]).filter
            (fun it => mkKey it.2.from_ it.2.to_ = k)).map (fun it => it.2.count)).sum ∧
        c7t.median_time_hours = jsMedian (((fbItems [c7v]).filter
            (fun it => mkKey it.2.from_ it.2.to_ = k)).flatMap
            (fun it => List.replicate it.2.count it.2.median_time_hours)) ∧
        c7t.mean_time_hours = jsMean (((fbItems [c7v]).filter
            (fun it => mkKey it.2.from_ it.2.to_ = k)).flatMap
            (fun it => List.replicate it.2.count it.2.median_time_hours)) ∧
        c7t.percentile_95_hours = jsP95 (((fbItems [c7v]).filter
            (fun it => mkKey it.2.from_ it.2.to_ = k)).flatMap
            (fun it => List.replicate it.2.count it.2.median_time_hours))) :=
  ⟨List.mem_cons_self _ _, c7_confirmed [c7v] c7t (List.mem_cons_self _ _)⟩

/-! ## Claim C4 -/

/-- In the total-flow branch, every topology key present in the total-flow
data contributes the aggregated transition finalized from the total-flow
entry (only `contributing_variants` depends on the selection). -/
theorem agg_total_transition (tfd : TotalFlowData) (s : List Variant) (k : String)
    (a : AggregatedVariant) (hks : k ∈ topoKeys s) (td : TFTransData)
    (htd : alLookup tfd.transitions k = some td)
    (ha : aggregateVariants s (some tfd) = some a) :
    aggFinalize k
      { count := td.count, times := td.times, performer_data := td.performer_data,
        contributing_variants := contribVariantsFor s k } ∈ a.transitions := by
  cases s with
  | nil => cases ha
  | cons v0 vs =>
    have htrans : a.transitions = (transitionMapTotal tfd (v0 :: vs)).map
        (fun p => aggFinalize p.1 p.2) := by
      rw [aggregateVariants] at ha
      · simp only [Option.some.injEq] at ha
        rw [← ha]
      · intro h
        cases h
    rw [htrans, List.mem_map]
    refine ⟨(k,
      { count := td.count, times := td.times, performer_data := td.performer_data,
        contributing_variants := contribVariantsFor (v0 :: vs) k }), ?_, rfl⟩
    rw [transitionMapTotal, List.mem_filterMap]
    refine ⟨k, hks, ?_⟩
    rw [aggEntryTotal, htd]
    rfl

/-- C4 (confirmed): under total-flow data, a transition key present in both
selected topologies and in the total-flow data gets identical count, median,
mean, 95th percentile and performer breakdown in both aggregations — the
volume comes wholesale from the total-flow entry, independent of the
selection. -/
theorem c4_confirmed (tfd : TotalFlowData) (s1 s2 : List Variant) (k : String)
    (a1 a2 : AggregatedVariant)
    (hk1 : k ∈ topoKeys s1) (hk2 : k ∈ topoKeys s2)
    (hk : (alLookup tfd.transitions k).isSome = true)
    (ha1 : aggregateVariants s1 (some tfd) = some a1)
    (ha2 : aggregateVariants s2 (some tfd) = some a2) :
    ∃ t1 ∈ a1.transitions, ∃ t2 ∈ a2.transitions,
      t1.from_ = t2.from_ ∧ t1.to_ = t2.to_ ∧
      t1.count = t2.count ∧
      t1.median_time_hours = t2.median_time_hours ∧
      t1.mean_time_hours = t2.mean_time_hours ∧
      t1.percentile_95_hours = t2.percentile_95_hours ∧
      t1.performer_breakdown = t2.performer_breakdown := by
  obtain ⟨td, htd⟩ := Option.isSome_iff_exists.mp hk
  refine ⟨aggFinalize k
      { count := td.count, times := td.times, performer_data := td.performer_data,
        contributing_variants := contribVariantsFor s1 k },
    agg_total_transition tfd s1 k a1 hk1 td htd ha1,
    aggFinalize k
      { count := td.count, times := td.times, performer_data := td.performer_data,
        contributing_variants := contribVariantsFor s2 k },
    agg_total_transition tfd s2 k a2 hk2 td htd ha2,
    rfl, rfl, rfl, rfl, rfl, rfl, rfl⟩

/-- A total-flow table holding the A→B transition. -/
def c4tfd : TotalFlowData :=
  { transitions := [("A → B",
      { count := 7, times := [1, 2], performer_data := [("p", [1, 2])],
        cases := ["x"] })],
    state_occupancy := [] }

/-- A first selection whose topology contains A→B. -/
def c4v1 : Variant :=
  { variant_id := "v1", sequence := ["A", "B"], case_count := 1, cases := ["x"],
    transitions := [{ from_ := "A", to_ := "B", count := 1, median_time_hours := 1,
                      mean_time_hours := 1, percentile_95_hours := 1,
                      performer_breakdown := [] }],
    state_occupancy := [], total_median_hours := 0, total_mean_hours := 0,
    total_percentile_95_hours := 0 }

/-- A second, different selection whose topology also contains A→B. -/
def c4v2 : Variant :=
  { variant_id := "v2", sequence := ["A", "B"], case_count := 2, cases := ["y", "z"],
    transitions := [{ from_ := "A", to_ := "B", count := 2, median_time_hours := 9,
                      mean_time_hours := 9, percentile_95_hours := 9,
                      performer_breakdown := [] }],
    state_occupancy := [], total_median_hours := 0, total_mean_hours := 0,
    total_percentile_95_hours := 0 }

/-- The two aggregations. -/
def c4a1 : AggregatedVariant :=
  (aggregateVariants [c4v1] (some c4tfd)).getD ⟨[], [], 0, [], [], 0, 0, 0⟩

def c4a2 : AggregatedVariant :=
  (aggregateVariants [c4v2] (some c4tfd)).getD ⟨[], [], 0, [], [], 0, 0, 0⟩

/-- C4 witness: the theorem applied to the concrete total-flow table and the
two one-variant selections. -/
theorem c4_confirmed_witness :
    ("A → B" ∈ topoKeys [c4v1] ∧ "A → B" ∈ topoKeys [c4v2] ∧
     (alLookup c4tfd.transitions "A → B").isSome = true ∧
     aggregateVariants [c4v1] (some c4tfd) = some c4a1 ∧
     aggregateVariants [c4v2] (some c4tfd) = some c4a2) ∧
    (∃ t1 ∈ c4a1.transitions, ∃ t2 ∈ c4a2.transitions,
      t1.from_ = t2.from_ ∧ t1.to_ = t2.to_ ∧
      t1.count = t2.count ∧
      t1.median_time_hours = t2.median_time_hours ∧
      t1.mean_time_hours = t2.mean_time_hours ∧
      t1.percentile_95_hours = t2.percentile_95_hours ∧
      t1.performer_breakdown = t2.performer_breakdown) :=
  ⟨⟨by decide, by decide, by decide, rfl, rfl⟩,
   c4_confirmed c4tfd [c4v1] [c4v2] "A → B" c4a1 c4a2
     (by decide) (by decide) (by decide) rfl rfl⟩

/-! ## Claim C8 -/

theorem getD_mem_of_lt {γ : Type} {l : List γ} {i : ℕ} (h : i < l.length) (d : γ) :
    l.getD i d ∈ l := by
  rw [List.getD_eq_getElem l d h]
  exact List.getElem_mem h

theorem foldl_add_rat (l : List ℚ) (q : ℚ) :
    l.foldl (fun s d => s + d) q = q + l.sum := by
  induction l generalizing q with
  | nil => simp
  | cons x t ih =>
    rw [List.foldl_cons, ih, List.sum_cons]
    ring

/-- C8 (confirmed): on an empty duration list the median, mean and 95th
percentile all equal 0; on a non-empty list bounded by `lo` and `hi`, all
three lie within `[lo, hi]`. -/
theorem c8_confirmed :
    (jsMedian ([] : List ℚ) = 0 ∧ jsMean ([] : List ℚ) = 0 ∧
      jsP95 ([] : List ℚ) = 0) ∧
    ∀ (l : List ℚ) (lo hi : ℚ), l ≠ [] → (∀ x ∈ l, lo ≤ x ∧ x ≤ hi) →
      (lo ≤ jsMedian l ∧ jsMedian l ≤ hi) ∧
      (lo ≤ jsMean l ∧ jsMean l ≤ hi) ∧
      (lo ≤ jsP95 l ∧ jsP95 l ≤ hi) := by
  refine ⟨⟨rfl, rfl, rfl⟩, ?_⟩
  intro l lo hi hne hb
  have hlen : 0 < l.length := List.length_pos.mpr hne
  have hmed : jsMedian l ∈ l := by
    rw [jsMedian]
    apply mem_jsSort.mp
    apply getD_mem_of_lt
    rw [length_jsSort]
    exact Nat.lt_of_lt_of_le (Nat.div_lt_self hlen (by norm_num)) (Nat.le_refl _)
  have hp95 : jsP95 l ∈ l := by
    rw [jsP95]
    apply mem_jsSort.mp
    apply getD_mem_of_lt
    rw [length_jsSort]
    rw [Nat.div_lt_iff_lt_mul (by norm_num : 0 < 20)]
    omega
  refine ⟨⟨(hb _ hmed).1, (hb _ hmed).2⟩, ?_, ⟨(hb _ hp95).1, (hb _ hp95).2⟩⟩
  have hn : (0 : ℚ) < (l.length : ℚ) := by exact_mod_cast hlen
  have hmean : jsMean l = l.sum / (l.length : ℚ) := by
    rw [jsMean, if_neg (Nat.pos_iff_ne_zero.mp hlen), foldl_add_rat, zero_add]
  rw [hmean]
  constructor
  · rw [le_div_iff hn]
    have h1 : l.length • lo ≤ l.sum :=
      List.card_nsmul_le_sum l lo (fun x hx => (hb x hx).1)
    rw [nsmul_eq_mul] at h1
    rw [mul_comm]
    exact h1
  · rw [div_le_iff hn]
    have h1 : l.sum ≤ l.length • hi :=
      List.sum_le_card_nsmul l hi (fun x hx => (hb x hx).2)
    rw [nsmul_eq_mul] at h1
    rw [mul_comm]
    exact h1

/-! ## Claim C9 -/

/-- The performer half of `identifyBottlenecks` (the top 20% slowest
performers with at least 5 handled transitions). -/
def performerBottlenecks (variants : List Variant) : List Bottleneck :=
  let perfAcc : List (String × PerformerTimeAcc) := performerAcc variants
  let performerAverages : List (String × ℚ × ℕ × ℕ) := jsSort (fun a b => b.2.1 ≤ a.2.1)
    (perfAcc.map (fun p =>
      (p.1, p.2.totalTime / (p.2.totalTransitions : ℚ), p.2.totalTransitions,
        p.2.activities.length)))
  let slowPerformerCount : ℕ := max 1 (performerAverages.length / 5)
  ((performerAverages.take slowPerformerCount).filter (fun p => 5 ≤ p.2.2.1)).map
    (fun p =>
    { type := "performer", identifier := p.1, score := p.2.1,
      reason := "Consistently slow performance across activities",
      affectedCases := p.2.2.1 })

/-- `identifyBottlenecks`, split into its transition and performer halves. -/
theorem identifyBottlenecks_eq (variants : List Variant) :
    identifyBottlenecks variants = jsSort (fun a b => b.score ≤ a.score)
      ((variants.flatMap (fun v => v.transitions.filterMap (fun t =>
        if p90Threshold variants ≤ t.median_time_hours ∧ 10 ≤ v.case_count then
          some (mkTransBottleneck v t)
        else none))) ++ performerBottlenecks variants) := rfl

/-- Spec-side definition, following the claim's words: the pool of every
variant's transitions' median times, with no positivity filter, and the
value at its sorted 90th-percentile index. -/
def specPoolClaim (variants : List Variant) : List ℚ :=
  variants.flatMap (fun v => v.transitions.map (fun t => t.median_time_hours))

/-- Spec-side 90th-percentile threshold over the unfiltered pool. -/
def specThresholdClaim (variants : List Variant) : ℚ :=
  (jsSortQ (specPoolClaim variants)).getD
    (9 * (specPoolClaim variants).length / 10) 0

/-- One c9 transition with a given source state and median. -/
def c9t (f : String) (m : ℚ) : Transition :=
  { from_ := f, to_ := "X", count := 1, median_time_hours := m,
    mean_time_hours := 0, percentile_95_hours := 0, performer_breakdown := [] }

/-- A variant with ten zero-median transitions and medians 1..10. -/
def c9Variant : Variant :=
  { variant_id := "v", sequence := [], case_count := 10, cases := [],
    transitions := [c9t "z1" 0, c9t "z2" 0, c9t "z3" 0, c9t "z4" 0, c9t "z5" 0,
                    c9t "z6" 0, c9t "z7" 0, c9t "z8" 0, c9t "z9" 0, c9t "z10" 0,
                    c9t "m1" 1, c9t "m2" 2, c9t "m3" 3, c9t "m4" 4, c9t "m5" 5,
                    c9t "m6" 6, c9t "m7" 7, c9t "m8" 8, c9t "m9" 9, c9t "m10" 10],
    state_occupancy := [], total_median_hours := 0, total_mean_hours := 0,
    total_percentile_95_hours := 0 }

def c9Variants : List Variant := [c9Variant]

unseal Rat.add Rat.mul Rat.inv Rat.sub in
/-- C9, counterexample: the code pools only the positive medians, so with ten
zero medians and medians 1..10 its threshold is 10, not the claimed
unfiltered-pool threshold 9; the median-9 transition of a variant with 10
cases meets the claimed threshold yet is flagged by nothing the code
returns. -/
theorem c9_counterexample :
    specThresholdClaim c9Variants = 9 ∧ p90Threshold c9Variants = 10 ∧
    (∃ v ∈ c9Variants, ∃ t ∈ v.transitions,
      10 ≤ v.case_count ∧ specThresholdClaim c9Variants ≤ t.median_time_hours ∧
      ∀ b ∈ identifyBottlenecks c9Variants,
        b.identifier ≠ t.from_ ++ " → " ++ t.to_) := by
  refine ⟨by decide, by decide, ?_⟩
  decide

/-- C9 (amended): a bottleneck entry is either a transition whose median
meets the 90th-percentile threshold of the pool of every variant's
transitions' *positive* median times, in a variant with at least 10 cases,
or one of the slow-performer entries. -/
theorem c9_amended (variants : List Variant) (b : Bottleneck) :
    b ∈ identifyBottlenecks variants ↔
      ((∃ v ∈ variants, ∃ t ∈ v.transitions,
          p90Threshold variants ≤ t.median_time_hours ∧ 10 ≤ v.case_count ∧
          b = mkTransBottleneck v t) ∨
        b ∈ performerBottlenecks variants) := by
  rw [identifyBottlenecks_eq, mem_jsSort, List.mem_append]
  simp only [List.mem_flatMap, List.mem_filterMap, Option.ite_none_right_eq_some,
    Option.some.injEq]
  constructor
  · rintro (⟨v, hv, t, ht, ⟨hc1, hc2⟩, he⟩ | h)
    · exact Or.inl ⟨v, hv, t, ht, hc1, hc2, he.symm⟩
    · exact Or.inr h
  · rintro (⟨v, hv, t, ht, hc1, hc2, he⟩ | h)
    · exact Or.inl ⟨v, hv, t, ht, ⟨hc1, hc2⟩, he.symm⟩
    · exact Or.inr h

end ProcessFlow
